import Mathlib

/-!
# Rank Role & Achievement Synchronization Engine — verification

Shallow embedding of the rank-role / achievement synchronization code of
`tle/cogs/handles.py` (the `Handles` cog): the achievement ledger update rule
(`_check_and_update_achievements`), the per-member role reconciler
(`update_member_rank_role`, `maybe_add_trusted_role`), the per-scope
reconciliation run (`_update_ranks`) and the multi-scope event pipeline
(`_on_rating_changes`).

Python `None` becomes `Option`, Python truthiness on ints (`x or y`,
`if x`) is embedded explicitly as a test against `0`/`none`, and the
side-effecting Discord calls are embedded as explicit event traces
(`Mutation`, `PipeEvent`).  Fallible code returns `Except`.
-/

set_option linter.unusedVariables false

namespace TLE

/-! ## Rank table and resolver

The rank table (`cf.RATED_RANKS`, `cf.rating2rank` of
`tle/util/codeforces_api.py`) is not part of the given sources. -/

/-- Modelled from the spec: the fixed, ordered tier table (§3 RankTier);
titles in ascending ordinal order.  The four lowest titles are the ones the
source names explicitly in `update_member_rank_role`; the remaining titles
are representative higher tiers.  A tier's ordinal is its index here; the
"Unrated" sentinel is *not* in this list (spec ordinal −1). -/
def rankOrder : List String :=
  ["Newbie", "Pupil", "Specialist", "Expert", "Candidate Master", "Master",
   "International Master", "Grandmaster", "International Grandmaster",
   "Legendary Grandmaster"]

/-- Modelled from the spec: `RankResolver.resolve` (§4.1) — scans the ordered
tier table and returns the ordinal of the highest tier whose lower bound is
≤ rating, `none` (the Unrated sentinel) when the rating is below the lowest
bound.  Lower bounds 0, 1200, 1400, 1700, 1900, 2100, 2300, 2400, 2600, 3000
are chosen to satisfy the spec's scenarios (ratings 1500 and 1650 both
resolve to the tier "Specialist"; the visibility threshold for "Pupil"
is 1200). -/
def resolveIdx (r : Int) : Option Nat :=
  if r < 0 then none
  else if r < 1200 then some 0
  else if r < 1400 then some 1
  else if r < 1700 then some 2
  else if r < 1900 then some 3
  else if r < 2100 then some 4
  else if r < 2300 then some 5
  else if r < 2400 then some 6
  else if r < 2600 then some 7
  else if r < 3000 then some 8
  else some 9

/-- `rating2rank(r)` when `r` is a rated rating: the tier title, `none` for
the Unrated sentinel. -/
def resolveTitle (r : Int) : Option String :=
  (resolveIdx r).map (fun i => rankOrder.getD i "Unrated")

/-- `rating2rank(r).title` as used by `_check_and_update_achievements`
(line 1150): the Unrated sentinel carries the title `"Unrated"`. -/
def resolveTitleStr (r : Int) : String :=
  (resolveTitle r).getD "Unrated"

/-- `rank_order.index` of the Python source, `None` instead of the
`ValueError`: index of the first occurrence of a title in the tier table. -/
def idxOf (l : List String) (s : String) : Option Nat :=
  match l with
  | [] => none
  | a :: as => if a = s then some 0 else (idxOf as s).map (· + 1)

/-- Spec ordinal of a stored (nullable) title: index in the tier table, −1
for an absent or unknown title (the Unrated sentinel of the spec). -/
def ordOf (t : Option String) : Int :=
  match t with
  | none => -1
  | some s =>
    match idxOf rankOrder s with
    | some i => (i : Int)
    | none => -1

/-! ## AchievementTracker (`_check_and_update_achievements`, per member)

Embeds lines 1144–1197 of `tle/cogs/handles.py` for one member, from the
point where `new_rank` has been computed: the flag computation, the
`old_max = old_max or new_rating` truthiness rebinding, the
`try/except ValueError` around the two `rank_order.index` calls, and the
conditional write of `(current_max, current_highest_rank)`. -/

/-- Stored achievement state as read by
`user_db.get_user_achievement(member, guild)`: the pair
`(maxRatingSeen, highestRankSeen)`; an absent record reads as
`(none, none)`. -/
structure AchState where
  maxR : Option Int
  rank : Option String
deriving DecidableEq, Repr

/-- Outcome of one application of the tracker to one member. -/
structure AchResult where
  isNewMax : Bool
  isNewRank : Bool
  state : AchState
  wrote : Bool
deriving DecidableEq, Repr

/-- The `is_new_max` computation (lines 1160–1163):
`old_max is None or new_rating > old_max`. -/
def newMaxFlag (oldMax : Option Int) (newRating : Int) : Bool :=
  match oldMax with
  | none => true
  | some m => decide (m < newRating)

/-- The `is_new_rank` computation (lines 1168–1181): true when the stored
rank is `None`; otherwise both titles are looked up in `rank_order` and
compared; a failed lookup (`ValueError`) leaves the flag false. -/
def newRankFlag (oldRank : Option String) (newRank : String) : Bool :=
  match oldRank with
  | none => true
  | some oh =>
    match idxOf rankOrder oh, idxOf rankOrder newRank with
    | some oi, some ni => decide (oi < ni)
    | _, _ => false

/-- The Python local `old_max` after `old_max = old_max or new_rating`
(line 1163), executed only inside the `is_new_max` branch: `None` and `0`
are both falsy and are replaced by `new_rating`. -/
def adjOldMax (oldMax : Option Int) (newRating : Int) : Int :=
  match oldMax with
  | none => newRating
  | some m => if newMaxFlag (some m) newRating then (if m ≠ 0 then m else newRating) else m

/-- `current_max = max(new_rating, old_max) if old_max else new_rating`
(line 1186): Python truthiness of the (rebound) `old_max` int. -/
def currentMaxOf (adj newRating : Int) : Int :=
  if adj ≠ 0 then max newRating adj else newRating

/-- `current_highest_rank` (lines 1189–1192): the new rank when the rank
flag is set or no rank was stored, otherwise the stored rank. -/
def currentRankOf (oldRank : Option String) (rankFlag : Bool) (newRank : String) : String :=
  match oldRank with
  | none => newRank
  | some t => if rankFlag then newRank else t

/-- One application of the achievement tracker for one member
(lines 1157–1197): compute both flags, and write
`(current_max, current_highest_rank)` back iff either flag is set,
otherwise leave the record untouched. -/
def checkMember (old : AchState) (newRating : Int) (newRank : String) : AchResult :=
  if newMaxFlag old.maxR newRating || newRankFlag old.rank newRank then
    ⟨newMaxFlag old.maxR newRating, newRankFlag old.rank newRank,
     ⟨some (currentMaxOf (adjOldMax old.maxR newRating) newRating),
      some (currentRankOf old.rank (newRankFlag old.rank newRank) newRank)⟩, true⟩
  else
    ⟨newMaxFlag old.maxR newRating, newRankFlag old.rank newRank, old, false⟩

/-- A sequence of `(rating, tier-title)` observations applied in order. -/
def applySeq (old : AchState) (obs : List (Int × String)) : AchState :=
  obs.foldl (fun s p => (checkMember s p.1 p.2).state) old

/-! ## Helper lemmas: index lookup and resolver -/

lemma idxOf_of_mem {s : String} {l : List String} (h : s ∈ l) :
    ∃ i, idxOf l s = some i := by
  induction l with
  | nil => cases h
  | cons a as ih =>
    by_cases ha : a = s
    · exact ⟨0, by simp [idxOf, ha]⟩
    · rcases List.mem_cons.mp h with h | h
      · exact absurd h.symm ha
      · rcases ih h with ⟨i, hi⟩
        exact ⟨i + 1, by simp [idxOf, ha, hi]⟩

/-- Lower bound of tier `i` in the modelled tier table. -/
def tierLB (i : Nat) : Int :=
  match i with
  | 0 => 0
  | 1 => 1200
  | 2 => 1400
  | 3 => 1700
  | 4 => 1900
  | 5 => 2100
  | 6 => 2300
  | 7 => 2400
  | 8 => 2600
  | _ => 3000

/-- Characterization of the resolver: unrated iff below the lowest bound,
otherwise the tier whose half-open rating interval contains the rating. -/
lemma resolveIdx_spec (r : Int) :
    (r < 0 ∧ resolveIdx r = none) ∨
    (∃ i, resolveIdx r = some i ∧ i ≤ 9 ∧ tierLB i ≤ r ∧ (i < 9 → r < tierLB (i + 1))) := by
  by_cases h0 : r < 0
  · exact Or.inl ⟨h0, by simp [resolveIdx, h0]⟩
  right
  by_cases h1 : r < 1200
  · exact ⟨0, by simp [resolveIdx, h0, h1], by omega, by simp [tierLB]; omega,
      by simp [tierLB]; omega⟩
  by_cases h2 : r < 1400
  · exact ⟨1, by simp [resolveIdx, h0, h1, h2], by omega, by simp [tierLB]; omega,
      by simp [tierLB]; omega⟩
  by_cases h3 : r < 1700
  · exact ⟨2, by simp [resolveIdx, h0, h1, h2, h3], by omega, by simp [tierLB]; omega,
      by simp [tierLB]; omega⟩
  by_cases h4 : r < 1900
  · exact ⟨3, by simp [resolveIdx, h0, h1, h2, h3, h4], by omega, by simp [tierLB]; omega,
      by simp [tierLB]; omega⟩
  by_cases h5 : r < 2100
  · exact ⟨4, by simp [resolveIdx, h0, h1, h2, h3, h4, h5], by omega, by simp [tierLB]; omega,
      by simp [tierLB]; omega⟩
  by_cases h6 : r < 2300
  · exact ⟨5, by simp [resolveIdx, h0, h1, h2, h3, h4, h5, h6], by omega,
      by simp [tierLB]; omega, by simp [tierLB]; omega⟩
  by_cases h7 : r < 2400
  · exact ⟨6, by simp [resolveIdx, h0, h1, h2, h3, h4, h5, h6, h7], by omega,
      by simp [tierLB]; omega, by simp [tierLB]; omega⟩
  by_cases h8 : r < 2600
  · exact ⟨7, by simp [resolveIdx, h0, h1, h2, h3, h4, h5, h6, h7, h8], by omega,
      by simp [tierLB]; omega, by simp [tierLB]; omega⟩
  by_cases h9 : r < 3000
  · exact ⟨8, by simp [resolveIdx, h0, h1, h2, h3, h4, h5, h6, h7, h8, h9], by omega,
      by simp [tierLB]; omega, by simp [tierLB]; omega⟩
  · exact ⟨9, by simp [resolveIdx, h0, h1, h2, h3, h4, h5, h6, h7, h8, h9], by omega,
      by simp [tierLB]; omega, by omega⟩

lemma tierLB_nonneg (i : Nat) : 0 ≤ tierLB i := by
  unfold tierLB
  split <;> omega

lemma tierLB_mono : ∀ b ≤ 9, ∀ a ≤ b, tierLB a ≤ tierLB b := by decide

lemma resolveIdx_le_nine {r : Int} {i : Nat} (h : resolveIdx r = some i) : i ≤ 9 := by
  rcases resolveIdx_spec r with ⟨_, hn⟩ | ⟨j, hj, hj9, _⟩
  · rw [hn] at h
    exact Option.noConfusion h
  · rw [hj] at h
    injection h with h2
    omega

lemma idxOf_getD_rankOrder {i : Nat} (h : i ≤ 9) :
    idxOf rankOrder (rankOrder.getD i "Unrated") = some i := by
  interval_cases i <;> decide

/-- The title produced by the resolver looks up in the tier table at exactly
the resolved ordinal (the Unrated title is not in the table). -/
lemma idxOf_resolveTitleStr (r : Int) :
    idxOf rankOrder (resolveTitleStr r) = resolveIdx r := by
  rcases h : resolveIdx r with _ | i
  · have ht : resolveTitleStr r = "Unrated" := by simp [resolveTitleStr, resolveTitle, h]
    rw [ht]
    decide
  · have ht : resolveTitleStr r = rankOrder.getD i "Unrated" := by
      simp [resolveTitleStr, resolveTitle, h]
    rw [ht]
    exact idxOf_getD_rankOrder (resolveIdx_le_nine h)

/-- The resolver is monotone: a lower rating never resolves to a tier when a
higher one does not. -/
lemma resolveIdx_mono_none {r₁ r₂ : Int} (h : r₂ ≤ r₁) (h1 : resolveIdx r₁ = none) :
    resolveIdx r₂ = none := by
  rcases resolveIdx_spec r₁ with ⟨hneg, _⟩ | ⟨i, hi, _⟩
  · rcases resolveIdx_spec r₂ with ⟨_, hn⟩ | ⟨j, hj, _, hlb, _⟩
    · exact hn
    · have := tierLB_nonneg j
      omega
  · rw [hi] at h1
    exact Option.noConfusion h1

/-- The resolver is monotone: ordinals respect the rating order. -/
lemma resolveIdx_mono_some {r₁ r₂ : Int} {i j : Nat} (h : r₂ ≤ r₁)
    (h2 : resolveIdx r₂ = some j) (h1 : resolveIdx r₁ = some i) : j ≤ i := by
  rcases resolveIdx_spec r₁ with ⟨_, hn⟩ | ⟨i', hi, hi9, hilb, hiub⟩
  · rw [hn] at h1
    exact Option.noConfusion h1
  rcases resolveIdx_spec r₂ with ⟨_, hn⟩ | ⟨j', hj, hj9, hjlb, _⟩
  · rw [hn] at h2
    exact Option.noConfusion h2
  rw [hi] at h1
  rw [hj] at h2
  injection h1 with e1
  injection h2 with e2
  subst e1
  subst e2
  by_contra hc
  have hi9' : i' < 9 := by omega
  have hstep : tierLB (i' + 1) ≤ tierLB j' := tierLB_mono j' hj9 (i' + 1) (by omega)
  have := hiub hi9'
  omega

/-! ## Helper lemmas: the tracker's flags and written state -/

lemma checkMember_isNewMax (old : AchState) (r : Int) (nk : String) :
    (checkMember old r nk).isNewMax = newMaxFlag old.maxR r := by
  unfold checkMember
  split <;> rfl

lemma checkMember_isNewRank (old : AchState) (r : Int) (nk : String) :
    (checkMember old r nk).isNewRank = newRankFlag old.rank nk := by
  unfold checkMember
  split <;> rfl

lemma newMaxFlag_true_iff (om : Option Int) (r : Int) :
    newMaxFlag om r = true ↔ (om = none ∨ ∃ m, om = some m ∧ m < r) := by
  rcases om with _ | m <;> simp [newMaxFlag]

lemma newRankFlag_eval (t nk : String) :
    newRankFlag (some t) nk =
      match idxOf rankOrder t, idxOf rankOrder nk with
      | some oi, some ni => decide (oi < ni)
      | _, _ => false := rfl

lemma newRankFlag_some_iff (t nk : String) :
    newRankFlag (some t) nk = true ↔
      ∃ oi ni, idxOf rankOrder t = some oi ∧ idxOf rankOrder nk = some ni ∧ oi < ni := by
  rw [newRankFlag_eval]
  rcases ho : idxOf rankOrder t with _ | oi <;>
    rcases hn : idxOf rankOrder nk with _ | ni <;> simp

lemma newRankFlag_false_iff (t nk : String) :
    newRankFlag (some t) nk = false ↔
      ∀ oi ni, idxOf rankOrder t = some oi → idxOf rankOrder nk = some ni → ni ≤ oi := by
  rw [newRankFlag_eval]
  rcases ho : idxOf rankOrder t with _ | oi <;>
    rcases hn : idxOf rankOrder nk with _ | ni <;> simp

/-- If neither flag is set, the tracker does not write: the stored record is
returned unchanged. -/
lemma checkMember_no_write {old : AchState} {r : Int} {nk : String} {m : Int}
    (hm : old.maxR = some m) (hle : r ≤ m) (hrk : newRankFlag old.rank nk = false) :
    checkMember old r nk = ⟨false, false, old, false⟩ := by
  have hmax : newMaxFlag old.maxR r = false := by
    rw [hm]
    simp [newMaxFlag, not_lt.mpr hle]
  unfold checkMember
  rw [hmax, hrk]
  simp

lemma currentMaxOf_ge_rating (adj r : Int) : r ≤ currentMaxOf adj r := by
  unfold currentMaxOf
  split_ifs <;> omega

/-- After any application, the stored max is defined and at least the
observed rating. -/
lemma checkMember_max_lb (old : AchState) (r : Int) (nk : String) :
    ∃ M, (checkMember old r nk).state.maxR = some M ∧ r ≤ M := by
  unfold checkMember
  split
  · exact ⟨_, rfl, currentMaxOf_ge_rating _ r⟩
  · rename_i hcond
    rcases hm : old.maxR with _ | m
    · rw [Bool.or_eq_true] at hcond
      exact absurd (Or.inl (by rw [hm]; rfl)) hcond
    · refine ⟨m, by simp [hm], ?_⟩
      have : newMaxFlag old.maxR r = false := by
        rcases h2 : newMaxFlag old.maxR r
        · rfl
        · exact absurd (Bool.or_eq_true _ _ |>.mpr (Or.inl h2)) hcond
      rw [hm] at this
      simp [newMaxFlag] at this
      omega

/-- Single-step max monotonicity, assuming a nonnegative observed rating
(with a negative rating and a stored max of exactly `0`, Python truthiness
lets the stored max decrease — see the C3 counterexample). -/
lemma checkMember_max_mono {old : AchState} {m : Int} (r : Int) (nk : String)
    (hr : 0 ≤ r) (hm : old.maxR = some m) :
    ∃ M, (checkMember old r nk).state.maxR = some M ∧ m ≤ M := by
  unfold checkMember
  split
  · refine ⟨_, rfl, ?_⟩
    rw [hm]
    unfold currentMaxOf adjOldMax newMaxFlag
    by_cases hlt : m < r <;> by_cases hz : m = 0 <;> simp [hlt, hz] <;> split_ifs <;> omega
  · exact ⟨m, by simp [hm], le_refl m⟩

/-- Every value `ordOf` takes is at least the Unrated sentinel −1. -/
lemma ordOf_ge_neg_one (t : Option String) : -1 ≤ ordOf t := by
  rcases t with _ | s
  · simp [ordOf]
  · unfold ordOf
    rcases h : idxOf rankOrder s with _ | i
    · simp [h]
    · simp [h]
      omega

/-- Single-step monotonicity of the stored highest rank's ordinal
(unconditional). -/
lemma checkMember_rank_mono (old : AchState) (r : Int) (nk : String) :
    ordOf old.rank ≤ ordOf (checkMember old r nk).state.rank := by
  unfold checkMember
  split
  · rcases ht : old.rank with _ | t
    · calc ordOf none = -1 := rfl
        _ ≤ _ := ordOf_ge_neg_one _
    · rcases hflag : newRankFlag (some t) nk with _ | _
      · simp [currentRankOf, hflag]
      · rcases (newRankFlag_some_iff t nk).mp hflag with ⟨oi, ni, hoi, hni, hlt⟩
        simp only [ordOf, currentRankOf, hflag, if_true, hoi, hni]
        omega
  · simp

/-- Sequence version of max monotonicity (nonnegative ratings). -/
lemma applySeq_max_mono :
    ∀ (obs : List (Int × String)) (old : AchState) (m : Int),
      (∀ p ∈ obs, 0 ≤ p.1) → old.maxR = some m →
      ∃ M, (applySeq old obs).maxR = some M ∧ m ≤ M := by
  intro obs
  induction obs with
  | nil => exact fun old m _ hm => ⟨m, hm, le_refl m⟩
  | cons p rest ih =>
    intro old m hpos hm
    obtain ⟨M₁, hM₁, hmM₁⟩ :=
      checkMember_max_mono p.1 p.2 (hpos p (List.mem_cons_self p rest)) hm
    obtain ⟨M, hM, hM₁M⟩ :=
      ih (checkMember old p.1 p.2).state M₁ (fun q hq => hpos q (List.mem_cons_of_mem p hq)) hM₁
    exact ⟨M, hM, le_trans hmM₁ hM₁M⟩

/-- Sequence version of rank-ordinal monotonicity (unconditional). -/
lemma applySeq_rank_mono :
    ∀ (obs : List (Int × String)) (old : AchState),
      ordOf old.rank ≤ ordOf (applySeq old obs).rank := by
  intro obs
  induction obs with
  | nil => exact fun old => le_refl _
  | cons p rest ih =>
    intro old
    exact le_trans (checkMember_rank_mono old p.1 p.2) (ih (checkMember old p.1 p.2).state)

/-- If, starting from the stored rank of a reconciled state, the rank flag
was false for the first (resolver-derived) observation, it stays false for
any lower rating. -/
lemma newRankFlag_false_mono {t : String} {r₁ r₂ : Int} (h : r₂ ≤ r₁)
    (hf : newRankFlag (some t) (resolveTitleStr r₁) = false) :
    newRankFlag (some t) (resolveTitleStr r₂) = false := by
  rw [newRankFlag_false_iff] at hf ⊢
  intro oi n₂ ho h₂
  rw [idxOf_resolveTitleStr] at h₂
  rcases h1 : resolveIdx r₁ with _ | n₁
  · rw [resolveIdx_mono_none h h1] at h₂
    exact Option.noConfusion h₂
  · have hn1 : n₁ ≤ oi := hf oi n₁ ho (by rw [idxOf_resolveTitleStr]; exact h1)
    have := resolveIdx_mono_some h h₂ h1
    omega

/-- The rank stored after an application with the resolver-derived tier is
never beaten by the resolver-derived tier of a lower rating. -/
lemma step_rank_flag_false (old : AchState) {r₁ r₂ : Int} (h : r₂ ≤ r₁) :
    newRankFlag (checkMember old r₁ (resolveTitleStr r₁)).state.rank
      (resolveTitleStr r₂) = false := by
  have hself : ∀ r₁' r₂' : Int, r₂' ≤ r₁' →
      newRankFlag (some (resolveTitleStr r₁')) (resolveTitleStr r₂') = false := by
    intro a b hba
    rw [newRankFlag_false_iff]
    intro oi ni ho hn
    rw [idxOf_resolveTitleStr] at ho hn
    exact resolveIdx_mono_some hba hn ho
  unfold checkMember
  split
  · rcases ht : old.rank with _ | t
    · simp only [currentRankOf]
      exact hself r₁ r₂ h
    · rcases hflag : newRankFlag (some t) (resolveTitleStr r₁) with _ | _
      · simp only [currentRankOf, hflag, if_false]
        exact newRankFlag_false_mono h hflag
      · simp only [currentRankOf, hflag, if_true]
        exact hself r₁ r₂ h
  · rename_i hcond
    rcases ht : old.rank with _ | t
    · exfalso
      apply hcond
      rw [Bool.or_eq_true]
      right
      rw [ht]
      rfl
    · have hflag : newRankFlag old.rank (resolveTitleStr r₁) = false := by
        rcases hx : newRankFlag old.rank (resolveTitleStr r₁)
        · rfl
        · exact absurd (Bool.or_eq_true _ _ |>.mpr (Or.inr hx)) hcond
      rw [ht] at hflag
      exact newRankFlag_false_mono h hflag

/-! ## Claims C2 and C3 -/

/-- Claim C2 (confirmed): for a stored record that is either absent or fully
present with a tier title from the table, and a new tier from the table,
`isNewMax` holds exactly when the record is absent or the new rating
strictly exceeds the stored max, and `isNewRank` holds exactly when the
record is absent or the new tier's ordinal strictly exceeds the stored
rank's ordinal; in particular the stored record (1400, "Pupil") under the
observation (1650, "Specialist") yields both flags and the updated record
(1650, "Specialist"). -/
theorem claim_C2_tracker_flags (oldMax : Option Int) (oldRank : Option String)
    (rating : Int) (newRank : String)
    (hrec : (oldMax = none ∧ oldRank = none) ∨
      (∃ m t, oldMax = some m ∧ oldRank = some t ∧ t ∈ rankOrder))
    (hnew : newRank ∈ rankOrder) :
    ((checkMember ⟨oldMax, oldRank⟩ rating newRank).isNewMax = true ↔
      (oldMax = none ∨ ∃ m, oldMax = some m ∧ m < rating)) ∧
    ((checkMember ⟨oldMax, oldRank⟩ rating newRank).isNewRank = true ↔
      (oldRank = none ∨ ordOf oldRank < ordOf (some newRank))) ∧
    checkMember ⟨some 1400, some "Pupil"⟩ 1650 "Specialist" =
      ⟨true, true, ⟨some 1650, some "Specialist"⟩, true⟩ := by
  refine ⟨?_, ?_, by decide⟩
  · rw [checkMember_isNewMax]
    exact newMaxFlag_true_iff oldMax rating
  · rw [checkMember_isNewRank]
    rcases oldRank with _ | t
    · simp [newRankFlag]
    · rcases hrec with ⟨_, h2⟩ | ⟨m, u, _, hu, hmem⟩
      · exact Option.noConfusion h2
      · injection hu with e
        subst e
        obtain ⟨oi, hoi⟩ := idxOf_of_mem hmem
        obtain ⟨ni, hni⟩ := idxOf_of_mem hnew
        rw [newRankFlag_some_iff]
        simp only [ordOf, hoi, hni]
        constructor
        · rintro ⟨oi', ni', h1, h2, h3⟩
          injection h1 with e1
          injection h2 with e2
          right
          omega
        · rintro (h | h)
          · exact Option.noConfusion h
          · refine ⟨oi, ni, rfl, rfl, ?_⟩
            omega

/-- Witness for C2: the spec's own scenario instantiates the theorem. -/
theorem claim_C2_tracker_flags_witness :
    ((checkMember ⟨some 1400, some "Pupil"⟩ 1650 "Specialist").isNewMax = true ↔
      ((some 1400 : Option Int) = none ∨ ∃ m, (some 1400 : Option Int) = some m ∧ m < 1650)) ∧
    ((checkMember ⟨some 1400, some "Pupil"⟩ 1650 "Specialist").isNewRank = true ↔
      ((some "Pupil" : Option String) = none ∨ ordOf (some "Pupil") < ordOf (some "Specialist"))) ∧
    checkMember ⟨some 1400, some "Pupil"⟩ 1650 "Specialist" =
      ⟨true, true, ⟨some 1650, some "Specialist"⟩, true⟩ :=
  claim_C2_tracker_flags (some 1400) (some "Pupil") 1650 "Specialist"
    (Or.inr ⟨1400, "Pupil", rfl, rfl, by decide⟩) (by decide)

/-- Claim C3 counterexample: the stored `maxRatingSeen` CAN decrease.  Python
truthiness (`old_max = old_max or new_rating`, `if old_max`) treats a stored
max of exactly `0` as absent, so from the record (0, no rank) — or
(0, "Pupil") with an explicitly supplied higher tier — an observation with
the negative rating −5 triggers a rank update and overwrites the stored max
`0` with `−5`, a strict decrease. -/
theorem claim_C3_counterexample :
    (checkMember ⟨some 0, none⟩ (-5) (resolveTitleStr (-5))).state.maxR = some (-5) ∧
    (checkMember ⟨some 0, some "Pupil"⟩ (-5) "Specialist").state.maxR = some (-5) ∧
    ((-5 : Int) < 0) := by
  decide

/-- Claim C3 as amended (proved): (1) provided every observed rating is
nonnegative, the stored `maxRatingSeen` never decreases under any sequence
of observations; (2) the stored highest rank's ordinal never decreases,
unconditionally; (3) for any record and ratings R1 ≥ R2 with
resolver-derived tiers, applying R2 after R1 leaves `maxRatingSeen` exactly
as after applying R1 alone. -/
theorem claim_C3_tracker_monotone :
    (∀ (old : AchState) (obs : List (Int × String)) (m : Int),
        (∀ p ∈ obs, 0 ≤ p.1) → old.maxR = some m →
        ∃ M, (applySeq old obs).maxR = some M ∧ m ≤ M) ∧
    (∀ (old : AchState) (obs : List (Int × String)),
        ordOf old.rank ≤ ordOf (applySeq old obs).rank) ∧
    (∀ (old : AchState) (r₁ r₂ : Int), r₂ ≤ r₁ →
        (checkMember (checkMember old r₁ (resolveTitleStr r₁)).state
            r₂ (resolveTitleStr r₂)).state.maxR
          = (checkMember old r₁ (resolveTitleStr r₁)).state.maxR) := by
  refine ⟨fun old obs m h1 h2 => applySeq_max_mono obs old m h1 h2,
    fun old obs => applySeq_rank_mono obs old, ?_⟩
  intro old r₁ r₂ h
  obtain ⟨M, hM, hrM⟩ := checkMember_max_lb old r₁ (resolveTitleStr r₁)
  have hnw := checkMember_no_write hM (le_trans h hrM) (step_rank_flag_false old h)
  rw [hnw]

/-- Witness for C3 (amended): concrete monotone run from the spec's
scenario record. -/
theorem claim_C3_tracker_monotone_witness :
    ∃ M, (applySeq ⟨some 1400, some "Pupil"⟩
        [(1650, "Specialist"), (1500, "Specialist")]).maxR = some M ∧ (1400 : Int) ≤ M :=
  claim_C3_tracker_monotone.1 ⟨some 1400, some "Pupil"⟩
    [(1650, "Specialist"), (1500, "Specialist")] 1400 (by decide) rfl

/-! ## RoleReconciler (`update_member_rank_role`, `maybe_add_trusted_role`)

Embeds lines 440–519 of `tle/cogs/handles.py`.  Roles are identified by
name; a member's role state is the list of role names held.  The Discord
calls `member.remove_roles`, `member.add_roles` and the call into
`maybe_add_trusted_role` (the one-shot eligibility-check signal) are
recorded as an ordered event trace. -/

/-- `constants.TLE_PURGATORY` (the module `tle/constants.py` is not under
the given sources; only the name matters — it is not a rank title). -/
def TLE_PURGATORY : String := "Purgatory"

/-- `constants.TLE_TRUSTED` (same remark as `TLE_PURGATORY`). -/
def TLE_TRUSTED : String := "Trusted"

/-- The four rank names listed literally at handles.py:512. -/
def lowRankTitles : List String := ["Newbie", "Pupil", "Specialist", "Expert"]

/-- One recorded side effect of the reconciler, in issue order. -/
inductive Mutation where
  /-- `member.remove_roles(*to_remove)` — one batched removal call. -/
  | removeRoles (memberId : Nat) (roles : List String)
  /-- `member.add_roles(role_to_assign)` — the rank-role addition call. -/
  | addRole (memberId : Nat) (role : String)
  /-- the call into `maybe_add_trusted_role` (the secondary signal). -/
  | trustedCheck (memberId : Nat)
  /-- `member.add_roles(trusted_role)` inside `maybe_add_trusted_role`. -/
  | addTrusted (memberId : Nat)
deriving DecidableEq, Repr

/-- A cached Codeforces user as used by `_update_ranks`: `rating` and
`maxRating`, both nullable. -/
structure CFUser where
  rating : Option Int
  maxRating : Option Int
deriving DecidableEq, Repr

/-- External collaborators of the reconciler: the user lookup
(`cf.user.info`, per handle, error = `CodeforcesApiError`), the handle
link (`user_db.get_handle`) and the trusted-eligibility condition of
`maybe_add_trusted_role` (the outcome of the `cf.user.rating` query and the
1900-before-cutoff test; `none` = the API error / not-found paths, which
the source catches and ignores). -/
structure Env where
  userInfo : String → Except Unit CFUser
  handleOf : Nat → Option String
  eligible : String → Option Bool

/-- `maybe_add_trusted_role` (lines 440–500): no-op unless the member has a
linked handle, the guild has the trusted role, and the member does not
already hold it; then the rating history is consulted and, when the
condition holds, the trusted role is added.  All failure paths inside are
caught and logged, never raised. -/
def maybeAddTrusted (env : Env) (guildRoles : List String) (mid : Nat)
    (roles : List String) : List Mutation × List String :=
  match env.handleOf mid with
  | none => ([], roles)
  | some h =>
    if TLE_TRUSTED ∉ guildRoles then ([], roles)
    else if TLE_TRUSTED ∈ roles then ([], roles)
    else
      match env.eligible h with
      | none => ([], roles)
      | some false => ([], roles)
      | some true => ([Mutation.addTrusted mid], roles ++ [TLE_TRUSTED])

/-- The `role_names_to_remove` set (lines 509–513): all rank titles, minus
the assigned one, plus the Purgatory gating role when the assigned rank is
not one of the four low ranks. -/
def removeNameSet (assign : Option String) : List String :=
  match assign with
  | none => rankOrder
  | some a =>
    if a ∈ lowRankTitles then rankOrder.filter (fun t => t ≠ a)
    else rankOrder.filter (fun t => t ≠ a) ++ [TLE_PURGATORY]

/-- The conditional call into `maybe_add_trusted_role` (lines 510–514):
issued exactly when a rank role is being assigned whose name is not one of
the four low ranks.  Returns the emitted events and the member's roles
after the call (the call may add the trusted role). -/
def trustedStepOf (env : Env) (gr : List String) (mid : Nat)
    (roles : List String) (assign : Option String) : List Mutation × List String :=
  match assign with
  | some a =>
    if a ∈ lowRankTitles then ([], roles)
    else (Mutation.trustedCheck mid :: (maybeAddTrusted env gr mid roles).1,
      (maybeAddTrusted env gr mid roles).2)
  | none => ([], roles)

/-- The member's roles when `to_remove` is computed (line 515). -/
def rolesAfterTrusted (env : Env) (gr : List String) (mid : Nat)
    (roles : List String) (assign : Option String) : List String :=
  (trustedStepOf env gr mid roles assign).2

/-- `to_remove` (line 515): the held roles whose names are in
`role_names_to_remove`. -/
def toRemoveOf (env : Env) (gr : List String) (mid : Nat)
    (roles : List String) (assign : Option String) : List String :=
  (rolesAfterTrusted env gr mid roles assign).filter (fun t => t ∈ removeNameSet assign)

/-- The removal call (lines 516–517), issued only when `to_remove` is
non-empty — one batched `remove_roles` call. -/
def removeEventsOf (env : Env) (gr : List String) (mid : Nat)
    (roles : List String) (assign : Option String) : List Mutation :=
  if (toRemoveOf env gr mid roles assign).isEmpty then []
  else [Mutation.removeRoles mid (toRemoveOf env gr mid roles assign)]

/-- The member's roles after the removal call. -/
def rolesAfterRemove (env : Env) (gr : List String) (mid : Nat)
    (roles : List String) (assign : Option String) : List String :=
  (rolesAfterTrusted env gr mid roles assign).filter (fun t => t ∉ removeNameSet assign)

/-- The addition call (lines 518–519), issued when a role is assigned and
not already held. -/
def addEventsOf (env : Env) (gr : List String) (mid : Nat)
    (roles : List String) (assign : Option String) : List Mutation :=
  match assign with
  | some a =>
    if a ∉ rolesAfterRemove env gr mid roles assign then [Mutation.addRole mid a] else []
  | none => []

/-- The member's final roles after one reconciler application. -/
def finalRolesOf (env : Env) (gr : List String) (mid : Nat)
    (roles : List String) (assign : Option String) : List String :=
  match assign with
  | some a =>
    if a ∉ rolesAfterRemove env gr mid roles assign then
      rolesAfterRemove env gr mid roles assign ++ [a]
    else rolesAfterRemove env gr mid roles assign
  | none => rolesAfterRemove env gr mid roles assign

/-- `update_member_rank_role` (lines 502–519): possibly signal the trusted
check (which may itself add the trusted role), then remove all held roles
whose names are in `role_names_to_remove` (one batched call, only when
non-empty), then add the assigned rank role when not already held.
Returns the issued event trace (in issue order) and the member's resulting
role names. -/
def updateMemberRankRole (env : Env) (gr : List String) (mid : Nat)
    (roles : List String) (assign : Option String) : List Mutation × List String :=
  ((trustedStepOf env gr mid roles assign).1 ++ removeEventsOf env gr mid roles assign ++
      addEventsOf env gr mid roles assign,
    finalRolesOf env gr mid roles assign)

/-- Discriminator: a role-removal call. -/
def Mutation.isRemove : Mutation → Bool
  | .removeRoles _ _ => true
  | _ => false

/-- Discriminator: the rank-role addition call. -/
def Mutation.isAdd : Mutation → Bool
  | .addRole _ _ => true
  | _ => false

/-- Discriminator: any role-mutation call (removal, rank addition or
trusted addition); the trusted *check* alone is not a mutation. -/
def Mutation.isMutationCall : Mutation → Bool
  | .trustedCheck _ => false
  | _ => true

/-- An environment whose collaborators always answer "unknown": no cached
users, no handle links, no eligibility. -/
def envNoop : Env := ⟨fun _ => Except.error (), fun _ => none, fun _ => none⟩

/-! ### Reconciler helper lemmas -/

lemma maybeAddTrusted_fst_sub (env : Env) (g : List String) (mid : Nat)
    (roles : List String) :
    ∀ e ∈ (maybeAddTrusted env g mid roles).1, e = Mutation.addTrusted mid := by
  unfold maybeAddTrusted
  rcases hh : env.handleOf mid with _ | h
  · simp
  · by_cases h1 : TLE_TRUSTED ∉ g
    · simp [h1]
    · by_cases h2 : TLE_TRUSTED ∈ roles
      · simp [h1, h2]
      · rcases he : env.eligible h with _ | b
        · simp [he, not_not.mp h1, h2]
        · rcases b <;> simp [he, not_not.mp h1, h2]

lemma maybeAddTrusted_snd_mem (env : Env) (g : List String) (mid : Nat)
    (roles : List String) {x : String} (hx : x ∈ roles) :
    x ∈ (maybeAddTrusted env g mid roles).2 := by
  unfold maybeAddTrusted
  rcases hh : env.handleOf mid with _ | h
  · exact hx
  · by_cases h1 : TLE_TRUSTED ∉ g
    · simp only [h1, if_true]
      exact hx
    · by_cases h2 : TLE_TRUSTED ∈ roles
      · simp only [h1, if_false, h2, if_true]
        exact hx
      · simp only [h1, if_false, h2]
        rcases he : env.eligible h with _ | b
        · exact hx
        · rcases b
          · exact hx
          · exact List.mem_append_left _ hx

lemma trustedStep_fst_sub (env : Env) (gr : List String) (mid : Nat)
    (roles : List String) (assign : Option String) :
    ∀ e ∈ (trustedStepOf env gr mid roles assign).1,
      e = Mutation.trustedCheck mid ∨ e = Mutation.addTrusted mid := by
  unfold trustedStepOf
  rcases assign with _ | a
  · simp
  · by_cases ha : a ∈ lowRankTitles
    · simp [ha]
    · simp only [ha, if_false]
      intro e he
      rcases List.mem_cons.mp he with he | he
      · exact Or.inl he
      · exact Or.inr (maybeAddTrusted_fst_sub env gr mid roles e he)

lemma trustedStep_fst_low (env : Env) (gr : List String) (mid : Nat)
    (roles : List String) {assign : Option String}
    (h : assign = none ∨ ∃ a, assign = some a ∧ a ∈ lowRankTitles) :
    (trustedStepOf env gr mid roles assign).1 = [] := by
  rcases h with rfl | ⟨a, rfl, ha⟩
  · rfl
  · unfold trustedStepOf
    simp [ha]

lemma rolesAfterTrusted_low (env : Env) (gr : List String) (mid : Nat)
    (roles : List String) {assign : Option String}
    (h : assign = none ∨ ∃ a, assign = some a ∧ a ∈ lowRankTitles) :
    rolesAfterTrusted env gr mid roles assign = roles := by
  rcases h with rfl | ⟨a, rfl, ha⟩
  · rfl
  · unfold rolesAfterTrusted trustedStepOf
    simp [ha]

lemma mem_rolesAfterTrusted (env : Env) (gr : List String) (mid : Nat)
    (roles : List String) (assign : Option String) {x : String} (hx : x ∈ roles) :
    x ∈ rolesAfterTrusted env gr mid roles assign := by
  unfold rolesAfterTrusted trustedStepOf
  rcases assign with _ | a
  · exact hx
  · by_cases ha : a ∈ lowRankTitles
    · simp only [ha, if_true]
      exact hx
    · simp only [ha, if_false]
      exact maybeAddTrusted_snd_mem env gr mid roles hx

lemma mem_removeEventsOf {env : Env} {gr : List String} {mid : Nat}
    {roles : List String} {assign : Option String} {e : Mutation}
    (he : e ∈ removeEventsOf env gr mid roles assign) :
    e = Mutation.removeRoles mid (toRemoveOf env gr mid roles assign) := by
  unfold removeEventsOf at he
  split_ifs at he
  · cases he
  · exact List.mem_singleton.mp he

lemma mem_addEventsOf {env : Env} {gr : List String} {mid : Nat}
    {roles : List String} {assign : Option String} {e : Mutation}
    (he : e ∈ addEventsOf env gr mid roles assign) :
    ∃ a, assign = some a ∧ e = Mutation.addRole mid a := by
  rcases assign with _ | a
  · cases he
  · by_cases hmem : a ∉ rolesAfterRemove env gr mid roles (some a)
    · have hev : addEventsOf env gr mid roles (some a) = [Mutation.addRole mid a] := by
        unfold addEventsOf
        simp [hmem]
      rw [hev] at he
      exact ⟨a, rfl, List.mem_singleton.mp he⟩
    · have hev : addEventsOf env gr mid roles (some a) = [] := by
        unfold addEventsOf
        simp [hmem]
      rw [hev] at he
      cases he

/-- In a concatenation where the right part satisfies no `P` and the left
part satisfies no `Q`, every `P`-position is strictly before every
`Q`-position. -/
lemma mem_append_index_lt {α : Type} {P Q : α → Bool} :
    ∀ (X Y : List α), (∀ e ∈ Y, P e = false) → (∀ e ∈ X, Q e = false) →
      ∀ i j (hi : i < (X ++ Y).length) (hj : j < (X ++ Y).length),
        P ((X ++ Y).get ⟨i, hi⟩) = true → Q ((X ++ Y).get ⟨j, hj⟩) = true → i < j := by
  intro X
  induction X with
  | nil =>
    intro Y hPY _ i j hi hj hP hQ
    exfalso
    simp only [List.nil_append] at hi hP
    rw [hPY _ (Y.get_mem i hi)] at hP
    cases hP
  | cons x X ih =>
    intro Y hPY hQX i j hi hj hP hQ
    rcases j with _ | j
    · exact absurd hQ (by simp [hQX x (List.mem_cons_self x X)])
    · rcases i with _ | i
      · exact Nat.succ_pos j
      · have := ih Y hPY (fun e he => hQX e (List.mem_cons_of_mem x he)) i j
          (by simpa using Nat.lt_of_succ_lt_succ hi) (by simpa using Nat.lt_of_succ_lt_succ hj)
          hP hQ
        omega

/-! ## Claims C6, C7, C10 -/

/-- Claim C6 (confirmed): in the trace of one reconciler application, every
role-removal call is issued strictly before every rank-role addition call —
`remove_roles` is awaited before `add_roles` (handles.py:515–519). -/
theorem claim_C6_remove_before_add (env : Env) (gr : List String) (mid : Nat)
    (roles : List String) (assign : Option String) :
    ∀ i j (hi : i < (updateMemberRankRole env gr mid roles assign).1.length)
        (hj : j < (updateMemberRankRole env gr mid roles assign).1.length),
      ((updateMemberRankRole env gr mid roles assign).1.get ⟨i, hi⟩).isRemove = true →
      ((updateMemberRankRole env gr mid roles assign).1.get ⟨j, hj⟩).isAdd = true →
      i < j := by
  intro i j hi hj hP hQ
  have hXY : ∀ e ∈ (trustedStepOf env gr mid roles assign).1 ++
      removeEventsOf env gr mid roles assign, Mutation.isAdd e = false := by
    intro e he
    rcases List.mem_append.mp he with he | he
    · rcases trustedStep_fst_sub env gr mid roles assign e he with rfl | rfl <;> rfl
    · rw [mem_removeEventsOf he]
      rfl
  have hZr : ∀ e ∈ addEventsOf env gr mid roles assign, Mutation.isRemove e = false := by
    intro e he
    obtain ⟨a, _, rfl⟩ := mem_addEventsOf he
    rfl
  exact mem_append_index_lt _ _ hZr hXY i j hi hj hP hQ

/-- Witness for C6: a member holding "Pupil" promoted to "Specialist" —
the trace is exactly a removal followed by an addition, at positions 0 < 1. -/
theorem claim_C6_remove_before_add_witness :
    ((updateMemberRankRole envNoop [] 1 ["Pupil"] (some "Specialist")).1 =
      [Mutation.removeRoles 1 ["Pupil"], Mutation.addRole 1 "Specialist"]) ∧ (0 : Nat) < 1 :=
  ⟨by decide,
   claim_C6_remove_before_add envNoop [] 1 ["Pupil"] (some "Specialist") 0 1
     (by decide) (by decide) (by decide) (by decide)⟩

/-- Claim C7 counterexample: the trusted-check signal fires although `toAdd`
is empty.  A member already holding the "Candidate Master" role (so outside
any provisional gating set, and with nothing to add) is reconciled at the
same tier: the trace contains the signal but no rank-role addition; the
claim's firing condition ("only when `toAdd` is non-empty and the member
held no role outside the provisional set") is therefore false on the code,
and so is "at most once per promotion" — the same call recurs on every
repeat run. -/
theorem claim_C7_counterexample :
    (Mutation.trustedCheck 1 ∈
      (updateMemberRankRole envNoop ["Trusted"] 1 ["Candidate Master"]
        (some "Candidate Master")).1) ∧
    (∀ e ∈ (updateMemberRankRole envNoop ["Trusted"] 1 ["Candidate Master"]
        (some "Candidate Master")).1, e.isAdd = false) := by
  decide

/-- Claim C7 as amended (proved): the trusted-check signal fires exactly
when a rank role outside {Newbie, Pupil, Specialist, Expert} is being
assigned — regardless of `toAdd` and of previously held roles, hence again
on every repeat run at the same high tier; only the trusted-role *addition*
inside the check is one-shot: re-running `maybe_add_trusted_role` on its own
output issues no second addition. -/
theorem claim_C7_trusted_signal (env : Env) (gr : List String) (mid : Nat)
    (roles : List String) (assign : Option String) :
    ((Mutation.trustedCheck mid ∈ (updateMemberRankRole env gr mid roles assign).1) ↔
      (∃ a, assign = some a ∧ a ∉ lowRankTitles)) ∧
    (maybeAddTrusted env gr mid (maybeAddTrusted env gr mid roles).2).1 = [] := by
  constructor
  · constructor
    · intro hmem
      rcases List.mem_append.mp hmem with hmem | hmem
      · rcases List.mem_append.mp hmem with hmem | hmem
        · by_contra hc
          push_neg at hc
          have hlow : assign = none ∨ ∃ a, assign = some a ∧ a ∈ lowRankTitles := by
            rcases assign with _ | a
            · exact Or.inl rfl
            · exact Or.inr ⟨a, rfl, by
                by_contra hal
                exact hal (by simpa using hc a rfl)⟩
          rw [trustedStep_fst_low env gr mid roles hlow] at hmem
          cases hmem
        · have := mem_removeEventsOf hmem
          exact absurd this (by simp)
      · obtain ⟨a, _, he⟩ := mem_addEventsOf hmem
        exact absurd he (by simp)
    · rintro ⟨a, rfl, ha⟩
      apply List.mem_append_left
      apply List.mem_append_left
      unfold trustedStepOf
      simp only [ha, if_false]
      exact List.mem_cons_self _ _
  · unfold maybeAddTrusted
    rcases hh : env.handleOf mid with _ | h
    · rfl
    · by_cases h1 : TLE_TRUSTED ∉ gr
      · simp [h1]
      · by_cases h2 : TLE_TRUSTED ∈ roles
        · simp [h1, h2]
        · simp only [h1, if_false, h2, if_true, ite_not]
          rcases he : env.eligible h with _ | b
          · simp [h1, h2, he]
          · rcases b
            · simp [h1, h2, he]
            · simp [h1, he]

/-- Claim C10 (confirmed): assigning a rank outside the four low ranks puts
the Purgatory gating role into the removal name set (and, when held, into
the issued removal call); assigning a low rank, or removing all rank roles,
never removes Purgatory — it is not in any removal call and survives in the
member's roles. -/
theorem claim_C10_purgatory (env : Env) (gr : List String) (mid : Nat)
    (roles : List String) :
    (∀ a, a ∉ lowRankTitles →
      TLE_PURGATORY ∈ removeNameSet (some a) ∧
      (TLE_PURGATORY ∈ roles →
        ∃ rs, Mutation.removeRoles mid rs ∈
            (updateMemberRankRole env gr mid roles (some a)).1 ∧
          TLE_PURGATORY ∈ rs)) ∧
    (∀ assign : Option String,
      (assign = none ∨ ∃ a, assign = some a ∧ a ∈ lowRankTitles) →
      (∀ rs, Mutation.removeRoles mid rs ∈
          (updateMemberRankRole env gr mid roles assign).1 → TLE_PURGATORY ∉ rs) ∧
      (TLE_PURGATORY ∈ roles →
        TLE_PURGATORY ∈ (updateMemberRankRole env gr mid roles assign).2)) := by
  have hpurg_rank : TLE_PURGATORY ∉ rankOrder := by decide
  constructor
  · intro a ha
    have hmem : TLE_PURGATORY ∈ removeNameSet (some a) := by
      unfold removeNameSet
      simp only [ha, if_false]
      exact List.mem_append_right _ (List.mem_singleton.mpr rfl)
    refine ⟨hmem, ?_⟩
    intro hroles
    have h1 : TLE_PURGATORY ∈ rolesAfterTrusted env gr mid roles (some a) :=
      mem_rolesAfterTrusted env gr mid roles (some a) hroles
    have h2 : TLE_PURGATORY ∈ toRemoveOf env gr mid roles (some a) := by
      unfold toRemoveOf
      rw [List.mem_filter]
      exact ⟨h1, decide_eq_true hmem⟩
    refine ⟨toRemoveOf env gr mid roles (some a), ?_, h2⟩
    apply List.mem_append_left
    apply List.mem_append_right
    unfold removeEventsOf
    have hne : (toRemoveOf env gr mid roles (some a)).isEmpty = false := by
      rcases hc : toRemoveOf env gr mid roles (some a) with _ | ⟨x, xs⟩
      · rw [hc] at h2
        cases h2
      · rfl
    rw [hne]
    simp
  · intro assign hlow
    have hnames : TLE_PURGATORY ∉ removeNameSet assign := by
      rcases hlow with rfl | ⟨a, rfl, halow⟩
      · exact hpurg_rank
      · unfold removeNameSet
        simp only [halow, if_true]
        intro hc
        exact hpurg_rank (List.mem_of_mem_filter hc)
    constructor
    · intro rs hrs hc
      rcases List.mem_append.mp hrs with he | he
      · rcases List.mem_append.mp he with he | he
        · rw [trustedStep_fst_low env gr mid roles hlow] at he
          cases he
        · have hrs2 := mem_removeEventsOf he
          injection hrs2 with e1 e2
          have : TLE_PURGATORY ∈ toRemoveOf env gr mid roles assign := by
            rw [e2] at hc
            exact hc
          have := (List.mem_filter.mp this).2
          exact hnames (by simpa using this)
      · obtain ⟨a, _, he2⟩ := mem_addEventsOf he
        exact Mutation.noConfusion he2
    · intro hroles
      have h₂ : TLE_PURGATORY ∈ rolesAfterRemove env gr mid roles assign := by
        unfold rolesAfterRemove
        rw [rolesAfterTrusted_low env gr mid roles hlow, List.mem_filter]
        exact ⟨hroles, decide_eq_true hnames⟩
      show TLE_PURGATORY ∈ finalRolesOf env gr mid roles assign
      rcases hlow with rfl | ⟨a, rfl, halow⟩
      · exact h₂
      · by_cases hc : a ∉ rolesAfterRemove env gr mid roles (some a)
        · have hf : finalRolesOf env gr mid roles (some a) =
              rolesAfterRemove env gr mid roles (some a) ++ [a] := by
            unfold finalRolesOf
            simp [hc]
          rw [hf]
          exact List.mem_append_left _ h₂
        · have hf : finalRolesOf env gr mid roles (some a) =
              rolesAfterRemove env gr mid roles (some a) := by
            unfold finalRolesOf
            simp [hc]
          rw [hf]
          exact h₂

/-- Witness for C10: assigning "Candidate Master" to a member holding
Purgatory puts Purgatory in the removal name set and in the issued removal
call. -/
theorem claim_C10_purgatory_witness :
    TLE_PURGATORY ∈ removeNameSet (some "Candidate Master") ∧
    (TLE_PURGATORY ∈ (["Purgatory", "Pupil"] : List String) →
      ∃ rs, Mutation.removeRoles 1 rs ∈
          (updateMemberRankRole envNoop [] 1 ["Purgatory", "Pupil"]
            (some "Candidate Master")).1 ∧
        TLE_PURGATORY ∈ rs) :=
  (claim_C10_purgatory envNoop [] 1 ["Purgatory", "Pupil"]).1 "Candidate Master" (by decide)

/-! ## SyncOrchestrator, one scope (`_update_ranks`, lines 934–980)

A scope (guild) is its role directory (`guild.roles`, by name) and its
member list.  `_update_ranks` receives the `(user_id, handle)` pairs of the
scope, drops pairs whose member left, raises when none remain, fetches all
users in one batched call, precomputes the set of required rank-role names
from each user's effective max rating, raises when any required role is
missing from the directory — *before* any member is processed — and only
then reconciles each member in order via `update_member_rank_role`. -/

/-- A guild member: identifier and currently-held role names. -/
structure Member where
  id : Nat
  roles : List String
deriving DecidableEq, Repr

/-- A scope: the role directory and the member list. -/
structure Guild where
  roleNames : List String
  members : List Member
deriving DecidableEq, Repr

/-- `guild.get_member(user_id)`. -/
def findMember (g : Guild) (uid : Nat) : Option Member :=
  g.members.find? (fun m => m.id = uid)

/-- Replace the roles of the member with the given id. -/
def setRoles (g : Guild) (uid : Nat) (rs : List String) : Guild :=
  { g with members := g.members.map (fun m => if m.id = uid then { m with roles := rs } else m) }

/-- Failure modes of a reconciliation run: `HandleCogError` (the scope-level
configuration error) and `cf.CodeforcesApiError` (the rating service). -/
inductive Err where
  | handleCog
  | api
deriving DecidableEq, Repr

/-- Decidable equality for `Except` results, so concrete runs can be
checked by `decide`. -/
instance {ε α : Type} [DecidableEq ε] [DecidableEq α] : DecidableEq (Except ε α) := fun a b =>
  match a, b with
  | .error e1, .error e2 =>
    if h : e1 = e2 then Decidable.isTrue (by rw [h])
    else Decidable.isFalse (fun hc => h (by injection hc))
  | .error _, .ok _ => Decidable.isFalse (fun hc => Except.noConfusion hc)
  | .ok _, .error _ => Decidable.isFalse (fun hc => Except.noConfusion hc)
  | .ok a1, .ok a2 =>
    if h : a1 = a2 then Decidable.isTrue (by rw [h])
    else Decidable.isFalse (fun hc => h (by injection hc))

/-- Lines 935–940: keep the `(user_id, handle)` pairs whose member is still
in the guild. -/
def memberHandles (g : Guild) (res : List (Nat × String)) : List (Nat × String) :=
  res.filter (fun p => (findMember g p.1).isSome)

/-- The batched `cf.user.info(handles=handles)` call (line 944): one call
for all handles; any failure fails the whole batch with the API error. -/
def fetchUsers (env : Env) (hs : List String) : Except Err (List CFUser) :=
  match hs.mapM env.userInfo with
  | .ok us => .ok us
  | .error _ => .error .api

/-- `max_rating = user.maxRating if user.maxRating else user.rating`
(lines 951, 970): Python truthiness — a `maxRating` of `None` *or* `0`
falls back to the current rating. -/
def effectiveMax (u : CFUser) : Option Int :=
  match u.maxRating with
  | some m => if m ≠ 0 then some m else u.rating
  | none => u.rating

/-- The rank-role name a member should hold: the resolved tier's title, or
`none` when the effective max rating is `None` or resolves to Unrated. -/
def desiredTitle (u : CFUser) : Option String :=
  match effectiveMax u with
  | none => none
  | some r => resolveTitle r

/-- `required_roles` (lines 949–955): the set of rank titles needed by the
fetched users (kept as a duplicate-free list). -/
def requiredTitles (users : List CFUser) : List String :=
  users.foldl
    (fun acc u =>
      match desiredTitle u with
      | some t => if t ∈ acc then acc else acc ++ [t]
      | none => acc) []

/-- `missing_roles` (line 960): required titles absent from the directory. -/
def missingTitles (g : Guild) (users : List CFUser) : List String :=
  (requiredTitles users).filter (fun t => t ∉ g.roleNames)

/-- The per-member loop (lines 968–980): reconcile each member in order
against the guild state left by the previous members, accumulating the
issued mutation trace. -/
def runLoop (env : Env) (pairs : List (Nat × CFUser)) (g : Guild)
    (acc : List Mutation) : Guild × List Mutation :=
  match pairs with
  | [] => (g, acc)
  | (uid, u) :: rest =>
    let roles := ((findMember g uid).map Member.roles).getD []
    let r := updateMemberRankRole env g.roleNames uid roles (desiredTitle u)
    runLoop env rest (setRoles g uid r.2) (acc ++ r.1)

/-- `_update_ranks` (lines 934–980): the whole reconciliation run for one
scope.  Raises `HandleCogError` when no member is left or when a required
rank role is missing from the directory (in both cases before any member is
reconciled, so an error result carries no mutation); raises the API error
when the batched user fetch fails. -/
def updateRanks (env : Env) (g : Guild) (res : List (Nat × String)) :
    Except Err (Guild × List Mutation) :=
  if (memberHandles g res).isEmpty then .error .handleCog
  else
    match fetchUsers env ((memberHandles g res).map Prod.snd) with
    | .error e => .error e
    | .ok users =>
      if (missingTitles g users).isEmpty then
        .ok (runLoop env (((memberHandles g res).map Prod.fst).zip users) g [])
      else .error .handleCog

/-! ### Guild-state lemmas -/

lemma setRoles_roleNames (g : Guild) (uid : Nat) (rs : List String) :
    (setRoles g uid rs).roleNames = g.roleNames := rfl

lemma findMember_setRoles_self (g : Guild) (uid : Nat) (rs : List String) :
    findMember (setRoles g uid rs) uid =
      (findMember g uid).map (fun m => { m with roles := rs }) := by
  unfold findMember setRoles
  induction g.members with
  | nil => rfl
  | cons m l ih =>
    by_cases hm : m.id = uid
    · rw [List.map_cons, List.find?_cons_of_pos _ (by simp [hm]),
        List.find?_cons_of_pos _ (by simp [hm])]
      simp [hm]
    · rw [List.map_cons, List.find?_cons_of_neg _ (by simp [hm]),
        List.find?_cons_of_neg _ (by simp [hm])]
      exact ih

lemma findMember_setRoles_ne (g : Guild) {uid uid' : Nat} (h : uid' ≠ uid)
    (rs : List String) :
    findMember (setRoles g uid rs) uid' = findMember g uid' := by
  unfold findMember setRoles
  induction g.members with
  | nil => rfl
  | cons m l ih =>
    simp only [List.map_cons]
    by_cases hm : m.id = uid'
    · have hne : m.id ≠ uid := by
        rw [hm]
        exact h
      rw [if_neg hne, List.find?_cons_of_pos _ (by simp [hm]),
        List.find?_cons_of_pos _ (by simp [hm])]
    · by_cases hmu : m.id = uid
      · rw [if_pos hmu, List.find?_cons_of_neg _ (by simp [hm]),
          List.find?_cons_of_neg _ (by simp [hm])]
        exact ih
      · rw [if_neg hmu, List.find?_cons_of_neg _ (by simp [hm]),
          List.find?_cons_of_neg _ (by simp [hm])]
        exact ih

lemma mapM_length {env : Env} :
    ∀ {hs : List String} {us : List CFUser}, hs.mapM env.userInfo = .ok us →
      us.length = hs.length := by
  intro hs
  induction hs with
  | nil =>
    intro us h
    simp only [List.mapM_nil, pure, Except.pure] at h
    injection h with h
    rw [← h]
    rfl
  | cons a l ih =>
    intro us h
    simp only [List.mapM_cons] at h
    rcases ha : env.userInfo a with _ | u
    · rw [ha] at h
      simp [bind, Except.bind] at h
    · rw [ha] at h
      simp only [bind, Except.bind] at h
      rcases hl : l.mapM env.userInfo with _ | us'
      · rw [hl] at h
        simp [pure, Except.pure] at h
      · rw [hl] at h
        simp only [pure, Except.pure] at h
        injection h with h
        rw [← h]
        simp [ih hl]

lemma fetchUsers_length {env : Env} {hs : List String} {us : List CFUser}
    (h : fetchUsers env hs = .ok us) : us.length = hs.length := by
  unfold fetchUsers at h
  rcases hm : hs.mapM env.userInfo with _ | us'
  · rw [hm] at h
    cases h
  · rw [hm] at h
    injection h with h
    rw [← h]
    exact mapM_length hm

lemma mem_memberHandles_isSome {g : Guild} {res : List (Nat × String)}
    {p : Nat × String} (h : p ∈ memberHandles g res) :
    (findMember g p.1).isSome := by
  have := (List.mem_filter.mp h).2
  simpa using this

lemma desiredTitle_mem_rankOrder {u : CFUser} {t : String}
    (h : desiredTitle u = some t) : t ∈ rankOrder := by
  unfold desiredTitle at h
  rcases he : effectiveMax u with _ | r
  · rw [he] at h
    cases h
  · rw [he] at h
    dsimp only at h
    unfold resolveTitle at h
    rcases hi : resolveIdx r with _ | i
    · rw [hi] at h
      simp at h
    · rw [hi] at h
      simp only [Option.map_some'] at h
      injection h with h
      have h9 := resolveIdx_le_nine hi
      rw [← h]
      interval_cases i <;> decide

/-- Master invariant of the per-member loop: (1) the role directory is
untouched, (2) unprocessed members are untouched, (3) each processed
member's final roles are its own reconciler output applied to its roles at
the start of the run, (4) every trace event comes from the accumulator or
from some processed member's reconciler application to its starting
roles. -/
lemma runLoop_spec (env : Env) :
    ∀ (pairs : List (Nat × CFUser)) (g : Guild) (acc : List Mutation),
      (pairs.map Prod.fst).Nodup →
      (∀ p ∈ pairs, (findMember g p.1).isSome) →
      (runLoop env pairs g acc).1.roleNames = g.roleNames ∧
      (∀ uid, uid ∉ pairs.map Prod.fst →
        findMember (runLoop env pairs g acc).1 uid = findMember g uid) ∧
      (∀ p ∈ pairs, ∃ m, findMember g p.1 = some m ∧
        findMember (runLoop env pairs g acc).1 p.1 =
          some ⟨m.id, (updateMemberRankRole env g.roleNames p.1 m.roles (desiredTitle p.2)).2⟩) ∧
      (∀ e ∈ (runLoop env pairs g acc).2, e ∈ acc ∨
        ∃ p ∈ pairs, ∃ m, findMember g p.1 = some m ∧
          e ∈ (updateMemberRankRole env g.roleNames p.1 m.roles (desiredTitle p.2)).1) := by
  intro pairs
  induction pairs with
  | nil =>
    intro g acc _ _
    exact ⟨rfl, fun _ _ => rfl, fun p hp => absurd hp (List.not_mem_nil p),
      fun e he => Or.inl he⟩
  | cons pu rest ih =>
    intro g acc hnd hpres
    obtain ⟨uid, u⟩ := pu
    have hsome : (findMember g uid).isSome := hpres (uid, u) (List.mem_cons_self _ _)
    obtain ⟨m0, hm0⟩ := Option.isSome_iff_exists.mp hsome
    have hnd' : (rest.map Prod.fst).Nodup := (List.nodup_cons.mp (by simpa using hnd)).2
    have huidnin : uid ∉ rest.map Prod.fst := (List.nodup_cons.mp (by simpa using hnd)).1
    have hne_rest : ∀ p ∈ rest, p.1 ≠ uid := by
      intro p hp hc
      exact huidnin (hc ▸ List.mem_map_of_mem Prod.fst hp)
    have hstep : runLoop env ((uid, u) :: rest) g acc =
        runLoop env rest
          (setRoles g uid
            (updateMemberRankRole env g.roleNames uid m0.roles (desiredTitle u)).2)
          (acc ++ (updateMemberRankRole env g.roleNames uid m0.roles (desiredTitle u)).1) := by
      conv_lhs => unfold runLoop
      rw [hm0]
      rfl
    have hpres' : ∀ p ∈ rest,
        (findMember (setRoles g uid
          (updateMemberRankRole env g.roleNames uid m0.roles (desiredTitle u)).2) p.1).isSome := by
      intro p hp
      rw [findMember_setRoles_ne g (hne_rest p hp) _]
      exact hpres p (List.mem_cons_of_mem _ hp)
    obtain ⟨ih1, ih2, ih3, ih4⟩ := ih
      (setRoles g uid (updateMemberRankRole env g.roleNames uid m0.roles (desiredTitle u)).2)
      (acc ++ (updateMemberRankRole env g.roleNames uid m0.roles (desiredTitle u)).1)
      hnd' hpres'
    rw [hstep]
    refine ⟨?_, ?_, ?_, ?_⟩
    · rw [ih1]
      rfl
    · intro uid' huid'
      have h1 : uid' ∉ rest.map Prod.fst := by
        intro hc
        exact huid' (by simpa using Or.inr hc)
      have h2 : uid' ≠ uid := by
        intro hc
        exact huid' (by simpa using Or.inl hc)
      rw [ih2 uid' h1, findMember_setRoles_ne g h2 _]
    · intro p hp
      rcases List.mem_cons.mp hp with rfl | hp
      · refine ⟨m0, hm0, ?_⟩
        rw [ih2 uid huidnin, findMember_setRoles_self, hm0]
        rfl
      · obtain ⟨m, hmfind, hmfinal⟩ := ih3 p hp
        rw [findMember_setRoles_ne g (hne_rest p hp) _] at hmfind
        refine ⟨m, hmfind, ?_⟩
        rw [hmfinal]
        rfl
    · intro e he
      rcases ih4 e he with hacc | ⟨p, hp, m, hmfind, hmem⟩
      · rcases List.mem_append.mp hacc with hacc | hr1
        · exact Or.inl hacc
        · exact Or.inr ⟨(uid, u), List.mem_cons_self _ _, m0, hm0, hr1⟩
      · rw [findMember_setRoles_ne g (hne_rest p hp) _] at hmfind
        exact Or.inr ⟨p, List.mem_cons_of_mem _ hp, m, hmfind, hmem⟩

/-! ### Reconciler role-state lemmas -/

lemma finalRolesOf_none (env : Env) (gr : List String) (mid : Nat) (roles : List String) :
    finalRolesOf env gr mid roles none = rolesAfterRemove env gr mid roles none := rfl

lemma finalRolesOf_some (env : Env) (gr : List String) (mid : Nat) (roles : List String)
    (a : String) :
    finalRolesOf env gr mid roles (some a) =
      if a ∉ rolesAfterRemove env gr mid roles (some a) then
        rolesAfterRemove env gr mid roles (some a) ++ [a]
      else rolesAfterRemove env gr mid roles (some a) := rfl

lemma addEventsOf_none (env : Env) (gr : List String) (mid : Nat) (roles : List String) :
    addEventsOf env gr mid roles none = [] := rfl

lemma addEventsOf_some (env : Env) (gr : List String) (mid : Nat) (roles : List String)
    (a : String) :
    addEventsOf env gr mid roles (some a) =
      if a ∉ rolesAfterRemove env gr mid roles (some a) then [Mutation.addRole mid a]
      else [] := rfl

lemma mem_removeNameSet_of_rank {t : String} (ht : t ∈ rankOrder) :
    ∀ {assign : Option String}, (∀ a, assign = some a → t ≠ a) → t ∈ removeNameSet assign := by
  intro assign h
  rcases assign with _ | a
  · exact ht
  · unfold removeNameSet
    have hta : t ≠ a := h a rfl
    by_cases ha : a ∈ lowRankTitles
    · simp only [ha, if_true]
      exact List.mem_filter.mpr ⟨ht, decide_eq_true hta⟩
    · simp only [ha, if_false]
      exact List.mem_append_left _ (List.mem_filter.mpr ⟨ht, decide_eq_true hta⟩)

lemma not_mem_removeNameSet_self {a : String} (ha : a ∈ rankOrder) :
    a ∉ removeNameSet (some a) := by
  unfold removeNameSet
  by_cases hl : a ∈ lowRankTitles
  · simp only [hl, if_true]
    intro hc
    have h2 := (List.mem_filter.mp hc).2
    simp at h2
  · simp only [hl, if_false]
    intro hc
    rcases List.mem_append.mp hc with hc | hc
    · have h2 := (List.mem_filter.mp hc).2
      simp at h2
    · have he : a = TLE_PURGATORY := List.mem_singleton.mp hc
      have hpr : TLE_PURGATORY ∉ rankOrder := by decide
      exact hpr (he ▸ ha)

lemma mem_removeNameSet_sub {t : String} {assign : Option String}
    (h : t ∈ removeNameSet assign) : t ∈ rankOrder ∨ t = TLE_PURGATORY := by
  rcases assign with _ | a
  · exact Or.inl h
  · unfold removeNameSet at h
    dsimp only at h
    by_cases hl : a ∈ lowRankTitles
    · rw [if_pos hl] at h
      exact Or.inl (List.mem_of_mem_filter h)
    · rw [if_neg hl] at h
      rcases List.mem_append.mp h with h | h
      · exact Or.inl (List.mem_of_mem_filter h)
      · exact Or.inr (List.mem_singleton.mp h)

lemma not_mem_rolesAfterRemove {env : Env} {gr : List String} {mid : Nat}
    {roles : List String} {assign : Option String} {t : String}
    (h : t ∈ removeNameSet assign) : t ∉ rolesAfterRemove env gr mid roles assign := by
  intro hc
  have := (List.mem_filter.mp hc).2
  simp only [decide_eq_true_eq] at this
  exact this h

/-- A member's final roles hold a rank title exactly when it is the
assigned one — the convergence core. -/
lemma UMRR_rank_roles (env : Env) (gr : List String) (mid : Nat)
    (roles : List String) (assign : Option String) :
    ∀ t ∈ rankOrder,
      (t ∈ (updateMemberRankRole env gr mid roles assign).2 ↔ assign = some t) := by
  intro t ht
  show t ∈ finalRolesOf env gr mid roles assign ↔ assign = some t
  rcases assign with _ | a
  · rw [finalRolesOf_none]
    constructor
    · intro h
      exact absurd h (not_mem_rolesAfterRemove (mem_removeNameSet_of_rank ht
        (fun a ha => Option.noConfusion ha)))
    · intro h
      exact Option.noConfusion h
  · rw [finalRolesOf_some]
    by_cases hta : t = a
    · subst hta
      constructor
      · intro _
        rfl
      · intro _
        by_cases hc : t ∉ rolesAfterRemove env gr mid roles (some t)
        · rw [if_pos hc]
          exact List.mem_append_right _ (List.mem_singleton.mpr rfl)
        · rw [if_neg hc]
          exact not_not.mp hc
    · have hmem : t ∈ removeNameSet (some a) :=
        mem_removeNameSet_of_rank ht (fun a' ha' => (Option.some.inj ha') ▸ hta)
      have hnr : t ∉ rolesAfterRemove env gr mid roles (some a) :=
        not_mem_rolesAfterRemove hmem
      constructor
      · intro h
        exfalso
        by_cases hc : a ∉ rolesAfterRemove env gr mid roles (some a)
        · rw [if_pos hc] at h
          rcases List.mem_append.mp h with h | h
          · exact hnr h
          · exact hta (List.mem_singleton.mp h)
        · rw [if_neg hc] at h
          exact hnr h
      · intro h
        injection h with e
        exact absurd e.symm hta

/-! ## Claim C5 -/

/-- Claim C5 (confirmed): after a successful reconciliation run with
distinct member ids, every processed member's final role state holds a rank
title iff it is the resolved desired title for that member's fetched user —
exactly one rank-namespace role when the resolved tier is rated, none when
Unrated. -/
theorem claim_C5_convergence (env : Env) (g : Guild) (res : List (Nat × String))
    (users : List CFUser) (gFin : Guild) (tr : List Mutation)
    (hnd : ((memberHandles g res).map Prod.fst).Nodup)
    (hu : fetchUsers env ((memberHandles g res).map Prod.snd) = .ok users)
    (hok : updateRanks env g res = .ok (gFin, tr)) :
    ∀ p ∈ ((memberHandles g res).map Prod.fst).zip users,
      ∃ m, findMember gFin p.1 = some m ∧
        ∀ t ∈ rankOrder, (t ∈ m.roles ↔ desiredTitle p.2 = some t) := by
  unfold updateRanks at hok
  by_cases hne : (memberHandles g res).isEmpty
  · rw [if_pos hne] at hok
    cases hok
  · rw [if_neg hne] at hok
    rw [hu] at hok
    dsimp only at hok
    by_cases hmiss : (missingTitles g users).isEmpty
    · rw [if_pos hmiss] at hok
      injection hok with hok
      have hlen : users.length = ((memberHandles g res).map Prod.fst).length := by
        rw [fetchUsers_length hu]
        simp
      have hfst : (((memberHandles g res).map Prod.fst).zip users).map Prod.fst =
          (memberHandles g res).map Prod.fst :=
        List.map_fst_zip _ _ (le_of_eq hlen.symm)
      have hndz : ((((memberHandles g res).map Prod.fst).zip users).map Prod.fst).Nodup := by
        rw [hfst]
        exact hnd
      have hpres : ∀ p ∈ ((memberHandles g res).map Prod.fst).zip users,
          (findMember g p.1).isSome := by
        intro p hp
        have h1 : p.1 ∈ (memberHandles g res).map Prod.fst := (List.of_mem_zip hp).1
        obtain ⟨q, hq, hq1⟩ := List.mem_map.mp h1
        rw [← hq1]
        exact mem_memberHandles_isSome hq
      obtain ⟨sp1, sp2, sp3, sp4⟩ :=
        runLoop_spec env (((memberHandles g res).map Prod.fst).zip users) g [] hndz hpres
      intro p hp
      obtain ⟨m, hmfind, hmfinal⟩ := sp3 p hp
      rw [hok] at hmfinal
      refine ⟨_, hmfinal, ?_⟩
      exact UMRR_rank_roles env g.roleNames p.1 m.roles (desiredTitle p.2)
    · rw [if_neg hmiss] at hok
      cases hok

/-! ### Idempotence machinery -/

lemma rolesAfterTrusted_high (env : Env) (gr : List String) (mid : Nat)
    (roles : List String) {a : String} (ha : a ∉ lowRankTitles) :
    rolesAfterTrusted env gr mid roles (some a) = (maybeAddTrusted env gr mid roles).2 := by
  unfold rolesAfterTrusted trustedStepOf
  simp [ha]

lemma trustedStep_fst_high (env : Env) (gr : List String) (mid : Nat)
    (roles : List String) {a : String} (ha : a ∉ lowRankTitles) :
    (trustedStepOf env gr mid roles (some a)).1 =
      Mutation.trustedCheck mid :: (maybeAddTrusted env gr mid roles).1 := by
  unfold trustedStepOf
  simp [ha]

lemma maybeAddTrusted_fst_nil_snd {env : Env} {gr : List String} {mid : Nat}
    {roles : List String} (h : (maybeAddTrusted env gr mid roles).1 = []) :
    (maybeAddTrusted env gr mid roles).2 = roles := by
  unfold maybeAddTrusted at h ⊢
  rcases hh : env.handleOf mid with _ | hd
  · rfl
  · rw [hh] at h
    by_cases h1 : TLE_TRUSTED ∉ gr
    · simp [h1]
    · by_cases h2 : TLE_TRUSTED ∈ roles
      · simp [h1, h2]
      · simp only [h1, if_false, h2, if_true, ite_not] at h ⊢
        rcases he : env.eligible hd with _ | b
        · simp [he]
        · rcases b
          · simp [he]
          · rw [he] at h
            simp at h

lemma trusted_not_names (assign : Option String) :
    TLE_TRUSTED ∉ removeNameSet assign := by
  intro h
  rcases mem_removeNameSet_sub h with h | h
  · revert h
    decide
  · exact absurd h (by decide)

lemma mem_final_of_not_names {env : Env} {gr : List String} {mid : Nat}
    {roles : List String} {assign : Option String} {x : String}
    (hx : x ∈ rolesAfterTrusted env gr mid roles assign)
    (hnx : x ∉ removeNameSet assign) :
    x ∈ finalRolesOf env gr mid roles assign := by
  have h2 : x ∈ rolesAfterRemove env gr mid roles assign := by
    unfold rolesAfterRemove
    exact List.mem_filter.mpr ⟨hx, decide_eq_true hnx⟩
  rcases assign with _ | a
  · rw [finalRolesOf_none]
    exact h2
  · rw [finalRolesOf_some]
    split_ifs
    · exact h2
    · exact List.mem_append_left _ h2

lemma mem_finalRolesOf_cases {env : Env} {gr : List String} {mid : Nat}
    {roles : List String} {assign : Option String} {x : String}
    (h : x ∈ finalRolesOf env gr mid roles assign) :
    x ∈ rolesAfterRemove env gr mid roles assign ∨ assign = some x := by
  rcases assign with _ | a
  · rw [finalRolesOf_none] at h
    exact Or.inl h
  · rw [finalRolesOf_some] at h
    by_cases hc : a ∉ rolesAfterRemove env gr mid roles (some a)
    · rw [if_pos hc] at h
      rcases List.mem_append.mp h with h | h
      · exact Or.inl h
      · exact Or.inr (by rw [List.mem_singleton.mp h])
    · rw [if_neg hc] at h
      exact Or.inl h

lemma assigned_mem_final (env : Env) (gr : List String) (mid : Nat)
    (roles : List String) (a : String) :
    a ∈ finalRolesOf env gr mid roles (some a) := by
  rw [finalRolesOf_some]
  by_cases hc : a ∉ rolesAfterRemove env gr mid roles (some a)
  · rw [if_pos hc]
    exact List.mem_append_right _ (List.mem_singleton.mpr rfl)
  · rw [if_neg hc]
    exact not_not.mp hc

/-- Running `maybe_add_trusted_role` against a role state that already
reflects a completed run issues no trusted addition. -/
lemma maybeAddTrusted_idem_final {env : Env} {gr : List String} {mid : Nat}
    {roles final : List String}
    (hpres : TLE_TRUSTED ∈ (maybeAddTrusted env gr mid roles).2 → TLE_TRUSTED ∈ final) :
    (maybeAddTrusted env gr mid final).1 = [] := by
  unfold maybeAddTrusted at hpres ⊢
  rcases hh : env.handleOf mid with _ | hd
  · rfl
  · rw [hh] at hpres
    by_cases h1 : TLE_TRUSTED ∉ gr
    · simp [h1]
    · by_cases h2 : TLE_TRUSTED ∈ final
      · simp [h1, h2]
      · simp only [h1, if_false, ite_not] at hpres ⊢
        rw [if_neg h2]
        by_cases h3 : TLE_TRUSTED ∈ roles
        · exact absurd (hpres (by simp [h3])) h2
        · rw [if_neg h3] at hpres
          rcases he : env.eligible hd with _ | b
          · simp [he]
          · rcases b
            · simp [he]
            · rw [he] at hpres
              exact absurd (hpres (by simp)) h2

/-- Elements of a completed run's final role state are never in the removal
name set (for a table-valid assignment). -/
lemma final_not_names {env : Env} {gr : List String} {mid : Nat}
    {roles : List String} {assign : Option String}
    (hval : ∀ a, assign = some a → a ∈ rankOrder) :
    ∀ x ∈ finalRolesOf env gr mid roles assign, x ∉ removeNameSet assign := by
  intro x hx
  rcases mem_finalRolesOf_cases hx with h | h
  · intro hc
    exact absurd h (not_mem_rolesAfterRemove hc)
  · rw [h]
    exact not_mem_removeNameSet_self (hval x h)

/-- Re-running the reconciler on its own output issues no mutation call. -/
lemma UMRR_idem (env : Env) (gr : List String) (mid : Nat) (roles : List String)
    (assign : Option String) (hval : ∀ a, assign = some a → a ∈ rankOrder) :
    ∀ e ∈ (updateMemberRankRole env gr mid
        (updateMemberRankRole env gr mid roles assign).2 assign).1,
      e.isMutationCall = false := by
  have hF : (updateMemberRankRole env gr mid roles assign).2 =
      finalRolesOf env gr mid roles assign := rfl
  rw [hF]
  -- the trusted step of the second run issues no addition
  have htr2 : ∀ e ∈ (trustedStepOf env gr mid (finalRolesOf env gr mid roles assign) assign).1,
      e.isMutationCall = false := by
    rcases assign with _ | a
    · intro e he
      cases he
    · by_cases ha : a ∈ lowRankTitles
      · intro e he
        rw [trustedStep_fst_low env gr mid _ (Or.inr ⟨a, rfl, ha⟩)] at he
        cases he
      · intro e he
        rw [trustedStep_fst_high env gr mid _ ha] at he
        have hnil : (maybeAddTrusted env gr mid (finalRolesOf env gr mid roles (some a))).1 = [] := by
          apply @maybeAddTrusted_idem_final env gr mid roles _
          intro hmem
          apply mem_final_of_not_names
          · rw [rolesAfterTrusted_high env gr mid roles ha]
            exact hmem
          · exact trusted_not_names (some a)
        rw [hnil] at he
        rcases List.mem_cons.mp he with rfl | he
        · rfl
        · cases he
    -- the second run's role state after its trusted step is the final state
  have hrat2 : rolesAfterTrusted env gr mid (finalRolesOf env gr mid roles assign) assign =
      finalRolesOf env gr mid roles assign := by
    rcases assign with _ | a
    · rfl
    · by_cases ha : a ∈ lowRankTitles
      · exact rolesAfterTrusted_low env gr mid _ (Or.inr ⟨a, rfl, ha⟩)
      · rw [rolesAfterTrusted_high env gr mid _ ha]
        apply maybeAddTrusted_fst_nil_snd
        apply @maybeAddTrusted_idem_final env gr mid roles _
        intro hmem
        apply mem_final_of_not_names
        · rw [rolesAfterTrusted_high env gr mid roles ha]
          exact hmem
        · exact trusted_not_names (some a)
  -- no removals in the second run
  have hrem2 : toRemoveOf env gr mid (finalRolesOf env gr mid roles assign) assign = [] := by
    unfold toRemoveOf
    rw [hrat2]
    apply List.filter_eq_nil_iff.mpr
    intro x hx
    simp only [decide_eq_true_eq]
    exact final_not_names hval x hx
  have hrem2' : removeEventsOf env gr mid (finalRolesOf env gr mid roles assign) assign = [] := by
    unfold removeEventsOf
    rw [hrem2]
    rfl
  -- no addition in the second run
  have hrar2 : rolesAfterRemove env gr mid (finalRolesOf env gr mid roles assign) assign =
      (finalRolesOf env gr mid roles assign).filter
        (fun t => t ∉ removeNameSet assign) := by
    unfold rolesAfterRemove
    rw [hrat2]
  have hadd2 : addEventsOf env gr mid (finalRolesOf env gr mid roles assign) assign = [] := by
    rcases assign with _ | a
    · rfl
    · rw [addEventsOf_some]
      have haF : a ∈ rolesAfterRemove env gr mid (finalRolesOf env gr mid roles (some a)) (some a) := by
        rw [hrar2]
        apply List.mem_filter.mpr
        refine ⟨assigned_mem_final env gr mid roles a, ?_⟩
        exact decide_eq_true (not_mem_removeNameSet_self (hval a rfl))
      rw [if_neg (by simpa using haF)]
  intro e he
  rcases List.mem_append.mp he with he | he
  · rcases List.mem_append.mp he with he | he
    · exact htr2 e he
    · rw [hrem2'] at he
      cases he
  · rw [hadd2] at he
    cases he

/-! ## Claims C4 and C1 -/

/-- Claim C4 (confirmed): a second reconciliation run from the state left by
a successful first run (same ratings, same roles — no intervening external
change) succeeds and issues zero role-mutation calls: its trace contains no
role removal, no rank-role addition and no trusted-role addition (at most
the trusted *check*, which mutates nothing). -/
theorem claim_C4_idempotent (env : Env) (g : Guild) (res : List (Nat × String))
    (g1 : Guild) (tr1 : List Mutation)
    (hnd : ((memberHandles g res).map Prod.fst).Nodup)
    (h1 : updateRanks env g res = .ok (g1, tr1)) :
    ∃ g2 tr2, updateRanks env g1 res = .ok (g2, tr2) ∧
      ∀ e ∈ tr2, e.isMutationCall = false := by
  unfold updateRanks at h1
  by_cases hne : (memberHandles g res).isEmpty
  · rw [if_pos hne] at h1
    cases h1
  rw [if_neg hne] at h1
  rcases hfu : fetchUsers env ((memberHandles g res).map Prod.snd) with e | users
  · rw [hfu] at h1
    dsimp only at h1
    cases h1
  rw [hfu] at h1
  dsimp only at h1
  by_cases hmiss : (missingTitles g users).isEmpty
  swap
  · rw [if_neg hmiss] at h1
    cases h1
  rw [if_pos hmiss] at h1
  injection h1 with h1
  have hlen : users.length = ((memberHandles g res).map Prod.fst).length := by
    rw [fetchUsers_length hfu]
    simp
  have hfst : (((memberHandles g res).map Prod.fst).zip users).map Prod.fst =
      (memberHandles g res).map Prod.fst :=
    List.map_fst_zip _ _ (le_of_eq hlen.symm)
  have hndz : ((((memberHandles g res).map Prod.fst).zip users).map Prod.fst).Nodup := by
    rw [hfst]
    exact hnd
  have hpres : ∀ p ∈ ((memberHandles g res).map Prod.fst).zip users,
      (findMember g p.1).isSome := by
    intro p hp
    have hx : p.1 ∈ (memberHandles g res).map Prod.fst := (List.of_mem_zip hp).1
    obtain ⟨q, hq, hq1⟩ := List.mem_map.mp hx
    rw [← hq1]
    exact mem_memberHandles_isSome hq
  obtain ⟨sp1, sp2, sp3, sp4⟩ :=
    runLoop_spec env (((memberHandles g res).map Prod.fst).zip users) g [] hndz hpres
  have hg1 : (runLoop env (((memberHandles g res).map Prod.fst).zip users) g []).1 = g1 := by
    rw [h1]
  have hRoleNames : g1.roleNames = g.roleNames := by
    rw [← hg1]
    exact sp1
  have hfmEq : ∀ q ∈ res, ((findMember g1 q.1).isSome : Bool) = (findMember g q.1).isSome := by
    intro q hq
    by_cases hqin : q.1 ∈ (((memberHandles g res).map Prod.fst).zip users).map Prod.fst
    · obtain ⟨p, hp, hp1⟩ := List.mem_map.mp hqin
      obtain ⟨m, hmfind, hmfinal⟩ := sp3 p hp
      rw [hg1] at hmfinal
      rw [← hp1, hmfinal, hmfind]
      rfl
    · rw [← hg1, sp2 q.1 hqin]
  have hmh : memberHandles g1 res = memberHandles g res := by
    unfold memberHandles
    exact List.filter_congr (fun q hq => hfmEq q hq)
  have hmissEq : missingTitles g1 users = missingTitles g users := by
    unfold missingTitles
    rw [hRoleNames]
  have hpres1 : ∀ p ∈ ((memberHandles g res).map Prod.fst).zip users,
      (findMember g1 p.1).isSome := by
    intro p hp
    obtain ⟨m, hmfind, hmfinal⟩ := sp3 p hp
    rw [hg1] at hmfinal
    rw [hmfinal]
    rfl
  obtain ⟨sq1, sq2, sq3, sq4⟩ :=
    runLoop_spec env (((memberHandles g res).map Prod.fst).zip users) g1 [] hndz hpres1
  refine ⟨(runLoop env (((memberHandles g res).map Prod.fst).zip users) g1 []).1,
    (runLoop env (((memberHandles g res).map Prod.fst).zip users) g1 []).2, ?_, ?_⟩
  · unfold updateRanks
    rw [hmh, if_neg hne, hfu]
    dsimp only
    rw [hmissEq, if_pos hmiss]
  · intro e he
    rcases sq4 e he with h0 | ⟨p, hp, m1, hm1find, hm1mem⟩
    · cases h0
    · obtain ⟨m, hmfind, hmfinal⟩ := sp3 p hp
      rw [hg1] at hmfinal
      have hm1 : m1 = ⟨m.id,
          (updateMemberRankRole env g.roleNames p.1 m.roles (desiredTitle p.2)).2⟩ :=
        Option.some.inj (hm1find.symm.trans hmfinal)
      rw [hm1, hRoleNames] at hm1mem
      exact UMRR_idem env g.roleNames p.1 m.roles (desiredTitle p.2)
        (fun a ha => desiredTitle_mem_rankOrder ha) e hm1mem

/-- Claim C1 as amended (proved): when the role directory lacks a required
rank-role name for some member's desired tier, the whole run fails with the
configuration error (`HandleCogError`) raised by the pre-flight check —
before any member is reconciled and before any role is mutated; sibling
members are skipped, not reconciled. -/
theorem claim_C1_scope_abort (env : Env) (g : Guild) (res : List (Nat × String))
    (users : List CFUser)
    (hne : (memberHandles g res).isEmpty = false)
    (hu : fetchUsers env ((memberHandles g res).map Prod.snd) = .ok users)
    (hmiss : (missingTitles g users).isEmpty = false) :
    updateRanks env g res = .error Err.handleCog := by
  unfold updateRanks
  simp [hne, hu, hmiss]

/-! ### Concrete scenario instances -/

/-- A two-member scope: member 1 rated 1650 (tier "Specialist"), member 2
rated 1250 (tier "Pupil"); no handle links for the trusted check. -/
def envW : Env :=
  ⟨fun h => if h = "alice" then .ok ⟨some 1650, some 1650⟩ else .ok ⟨some 1250, some 1250⟩,
   fun _ => none, fun _ => none⟩

/-- A well-configured guild for the scenario. -/
def gW : Guild := ⟨["Newbie", "Pupil", "Specialist"], [⟨1, ["Newbie"]⟩, ⟨2, ["Purgatory"]⟩]⟩

/-- The guild state after one reconciliation run of `gW` under `envW`. -/
def g1W : Guild :=
  ⟨["Newbie", "Pupil", "Specialist"], [⟨1, ["Specialist"]⟩, ⟨2, ["Purgatory", "Pupil"]⟩]⟩

/-- The mutation trace of that first run. -/
def tr1W : List Mutation :=
  [Mutation.removeRoles 1 ["Newbie"], Mutation.addRole 1 "Specialist",
   Mutation.addRole 2 "Pupil"]

/-- A guild whose role directory lacks the "Specialist" role needed by
member 1, while member 2's "Pupil" role exists. -/
def gC1 : Guild := ⟨["Newbie", "Pupil"], [⟨1, []⟩, ⟨2, []⟩]⟩

/-- Claim C1 counterexample: in `gC1` the directory lacks "Specialist"
(member 1's desired tier) while member 2's desired "Pupil" role is present;
the run nevertheless fails as a whole with the configuration error — member
2 is *not* reconciled and no mutation is issued (the error is raised before
the member loop), contradicting "every other member of the same scope is
still reconciled". -/
theorem claim_C1_counterexample :
    updateRanks envW gC1 [(1, "alice"), (2, "bob")] = .error Err.handleCog ∧
    desiredTitle ⟨some 1250, some 1250⟩ = some "Pupil" ∧
    "Pupil" ∈ gC1.roleNames ∧
    desiredTitle ⟨some 1650, some 1650⟩ = some "Specialist" ∧
    "Specialist" ∉ gC1.roleNames := by
  decide

/-- Witness for C1 (amended), at a single-member scope with the role
missing. -/
theorem claim_C1_scope_abort_witness :
    updateRanks envW gC1 [(1, "alice")] = .error Err.handleCog :=
  claim_C1_scope_abort envW gC1 [(1, "alice")] [⟨some 1650, some 1650⟩]
    (by decide) (by decide) (by decide)

/-- Witness for C4: the second run over the reconciled scenario guild
issues no mutation call. -/
theorem claim_C4_idempotent_witness :
    ∃ g2 tr2, updateRanks envW g1W [(1, "alice"), (2, "bob")] = .ok (g2, tr2) ∧
      ∀ e ∈ tr2, e.isMutationCall = false :=
  claim_C4_idempotent envW gW [(1, "alice"), (2, "bob")] g1W tr1W (by decide) (by decide)

/-- Witness for C5: after the scenario run, member 1 holds exactly the
"Specialist" rank role. -/
theorem claim_C5_convergence_witness :
    ∃ m, findMember g1W 1 = some m ∧
      ∀ t ∈ rankOrder, (t ∈ m.roles ↔ desiredTitle ⟨some 1650, some 1650⟩ = some t) :=
  claim_C5_convergence envW gW [(1, "alice"), (2, "bob")]
    [⟨some 1650, some 1650⟩, ⟨some 1250, some 1250⟩] g1W tr1W
    (by decide) (by decide) (by decide) (1, ⟨some 1650, some 1650⟩) (by decide)

/-! ## The per-scope pipeline and the multi-scope event run
(`_check_and_update_achievements`, `update_for_guild`, `_on_rating_changes`,
lines 403–431 and 1133–1211)

The pipeline's externally visible effects are embedded as an ordered event
trace: `persist` is the `user_db.update_user_achievement` write, `notify`
the congratulation message sent for a member's achievement. -/

/-- One observable pipeline effect. -/
inductive PipeEvent where
  | persist (memberId : Nat)
  | notify (memberId : Nat)
deriving DecidableEq, Repr

/-- The member loop of `_check_and_update_achievements` (lines 1144–1209):
skip members who left or have no entry in the rating-change batch; apply
the tracker with the resolver-derived tier of the new rating; on a write,
persist and — when the new rating reaches the Pupil visibility threshold
1200 — queue the member for announcement.  Returns the updated store, the
pipeline events so far and the queued member list. -/
def achGo (g : Guild) (changes : String → Option Int) :
    List (Nat × String) → (Nat → AchState) → List PipeEvent → List Nat →
    (Nat → AchState) × List PipeEvent × List Nat
  | [], db, ev, ach => (db, ev, ach)
  | (uid, h) :: rest, db, ev, ach =>
    if (findMember g uid).isSome then
      match changes h with
      | some nr =>
        let res := checkMember (db uid) nr (resolveTitleStr nr)
        if res.wrote then
          achGo g changes rest (fun x => if x = uid then res.state else db x)
            (ev ++ [PipeEvent.persist uid])
            (if nr ≥ 1200 then ach ++ [uid] else ach)
        else achGo g changes rest db ev ach
      | none => achGo g changes rest db ev ach
    else achGo g changes rest db ev ach

/-- `_check_and_update_achievements` for one guild. -/
def checkAndUpdateAchievements (g : Guild) (db : Nat → AchState)
    (handles : List (Nat × String)) (changes : String → Option Int) :
    (Nat → AchState) × List PipeEvent × List Nat :=
  achGo g changes handles db [] []

/-- One scope's state as seen by `update_for_guild`: the guild, the
achievement store (`user_db`, keyed by member id for this guild), the
guild's `(user_id, handle)` links, the auto-role-update flag and whether
the rankup channel resolves. -/
structure GuildCtx where
  guild : Guild
  db : Nat → AchState
  handles : List (Nat × String)
  auto : Bool
  channel : Bool

/-- One scope's pipeline outcome: the pipeline events that were emitted
(in order), the role mutations issued, and the final state or the uncaught
error (`cf.CodeforcesApiError` is not a `HandleCogError`, so it escapes the
`contextlib.suppress` and reaches the fan-out). -/
structure GuildOutcome where
  events : List PipeEvent
  muts : List Mutation
  result : Except Err GuildCtx

/-- `update_for_guild` (lines 407–425): achievements first (persisting each
before anything later), then — when auto role update is enabled — the rank
reconciliation with `HandleCogError` suppressed but the API error
propagating, then the achievement notifications when a rankup channel is
configured and achievements were queued. -/
def updateForGuild (env : Env) (ctx : GuildCtx) (changes : String → Option Int) :
    GuildOutcome :=
  let a := checkAndUpdateAchievements ctx.guild ctx.db ctx.handles changes
  match (if ctx.auto then updateRanks env ctx.guild ctx.handles
    else .ok (ctx.guild, [])) with
  | .error Err.api => ⟨a.2.1, [], .error Err.api⟩
  | .error Err.handleCog =>
    let nev := if ctx.channel ∧ a.2.2 ≠ [] then a.2.2.map PipeEvent.notify else []
    ⟨a.2.1 ++ nev, [], .ok ⟨ctx.guild, a.1, ctx.handles, ctx.auto, ctx.channel⟩⟩
  | .ok gm =>
    let nev := if ctx.channel ∧ a.2.2 ≠ [] then a.2.2.map PipeEvent.notify else []
    ⟨a.2.1 ++ nev, gm.2, .ok ⟨gm.1, a.1, ctx.handles, ctx.auto, ctx.channel⟩⟩

/-- `_on_rating_changes` (lines 403–431): one pipeline per guild, run under
`asyncio.gather(..., return_exceptions=True)` — every pipeline runs to
completion on its own disjoint state and its outcome (value or exception)
is collected; no fail-fast.  Under that semantics the fan-out is the
per-scope collection of each scope's own outcome. -/
def onRatingChanges (env : Env) (ctxs : List GuildCtx)
    (changes : String → Option Int) : List GuildOutcome :=
  ctxs.map (fun c => updateForGuild env c changes)

/-! ### Pipeline lemmas -/

lemma achGo_cons (g : Guild) (changes : String → Option Int) (uid : Nat) (h : String)
    (rest : List (Nat × String)) (db : Nat → AchState) (ev : List PipeEvent)
    (ach : List Nat) :
    achGo g changes ((uid, h) :: rest) db ev ach =
      if (findMember g uid).isSome then
        match changes h with
        | some nr =>
          if (checkMember (db uid) nr (resolveTitleStr nr)).wrote then
            achGo g changes rest
              (fun x => if x = uid then (checkMember (db uid) nr (resolveTitleStr nr)).state
                else db x)
              (ev ++ [PipeEvent.persist uid]) (if nr ≥ 1200 then ach ++ [uid] else ach)
          else achGo g changes rest db ev ach
        | none => achGo g changes rest db ev ach
      else achGo g changes rest db ev ach := rfl

/-- Everything the achievement loop emits is a persist event, and every
queued member has a persist event in the emitted trace. -/
lemma achGo_inv (g : Guild) (changes : String → Option Int) :
    ∀ (hs : List (Nat × String)) (db : Nat → AchState) (ev : List PipeEvent)
      (ach : List Nat),
      (∀ e ∈ ev, ∃ u, e = PipeEvent.persist u) →
      (∀ u ∈ ach, PipeEvent.persist u ∈ ev) →
      (∀ e ∈ (achGo g changes hs db ev ach).2.1, ∃ u, e = PipeEvent.persist u) ∧
      (∀ u ∈ (achGo g changes hs db ev ach).2.2,
        PipeEvent.persist u ∈ (achGo g changes hs db ev ach).2.1) := by
  intro hs
  induction hs with
  | nil =>
    intro db ev ach h1 h2
    exact ⟨h1, h2⟩
  | cons p rest ih =>
    intro db ev ach h1 h2
    obtain ⟨uid, h⟩ := p
    rw [achGo_cons]
    by_cases hm : (findMember g uid).isSome
    · rw [if_pos hm]
      rcases hc : changes h with _ | nr
      · exact ih db ev ach h1 h2
      · dsimp only
        by_cases hw : (checkMember (db uid) nr (resolveTitleStr nr)).wrote
        · rw [if_pos hw]
          apply ih
          · intro e he
            rcases List.mem_append.mp he with he | he
            · exact h1 e he
            · exact ⟨uid, List.mem_singleton.mp he⟩
          · intro u hu
            by_cases h12 : nr ≥ 1200
            · rw [if_pos h12] at hu
              rcases List.mem_append.mp hu with hu | hu
              · exact List.mem_append_left _ (h2 u hu)
              · rw [List.mem_singleton.mp hu]
                exact List.mem_append_right _ (List.mem_singleton.mpr rfl)
            · rw [if_neg h12] at hu
              exact List.mem_append_left _ (h2 u hu)
        · rw [if_neg hw]
          exact ih db ev ach h1 h2
    · rw [if_neg hm]
      exact ih db ev ach h1 h2

/-- The pipeline's event trace is the persist trace followed by
notifications, each notification naming a queued member. -/
lemma updateForGuild_events (env : Env) (ctx : GuildCtx)
    (changes : String → Option Int) :
    ∃ nev, (updateForGuild env ctx changes).events =
      (checkAndUpdateAchievements ctx.guild ctx.db ctx.handles changes).2.1 ++ nev ∧
      ∀ e ∈ nev, ∃ u, e = PipeEvent.notify u ∧
        u ∈ (checkAndUpdateAchievements ctx.guild ctx.db ctx.handles changes).2.2 := by
  unfold updateForGuild
  rcases hr : (if ctx.auto then updateRanks env ctx.guild ctx.handles
    else .ok (ctx.guild, [])) with e | gm
  · rcases e
    · refine ⟨_, rfl, ?_⟩
      intro e he
      by_cases hch : ctx.channel ∧
          (checkAndUpdateAchievements ctx.guild ctx.db ctx.handles changes).2.2 ≠ []
      · rw [if_pos hch] at he
        obtain ⟨u, hu, he⟩ := List.mem_map.mp he
        exact ⟨u, he.symm, hu⟩
      · rw [if_neg hch] at he
        cases he
    · exact ⟨[], (List.append_nil _).symm, fun e he => absurd he (List.not_mem_nil e)⟩
  · refine ⟨_, rfl, ?_⟩
    intro e he
    by_cases hch : ctx.channel ∧
        (checkAndUpdateAchievements ctx.guild ctx.db ctx.handles changes).2.2 ≠ []
    · rw [if_pos hch] at he
      obtain ⟨u, hu, he⟩ := List.mem_map.mp he
      exact ⟨u, he.symm, hu⟩
    · rw [if_neg hch] at he
      cases he

lemma my_get_congr {α : Type} {X Y : List α} (h : X = Y) (i : Nat)
    (hiX : i < X.length) (hiY : i < Y.length) :
    X.get ⟨i, hiX⟩ = Y.get ⟨i, hiY⟩ := by
  subst h
  rfl

lemma my_get_append_left {α : Type} :
    ∀ (X Y : List α) (i : Nat) (hiX : i < X.length) (hi : i < (X ++ Y).length),
      (X ++ Y).get ⟨i, hi⟩ = X.get ⟨i, hiX⟩ := by
  intro X
  induction X with
  | nil =>
    intro Y i hiX
    cases hiX
  | cons x X ih =>
    intro Y i hiX hi
    rcases i with _ | i
    · rfl
    · exact ih Y i (Nat.lt_of_succ_lt_succ hiX) (by simpa using Nat.lt_of_succ_lt_succ hi)

lemma my_get_append_mem_right {α : Type} :
    ∀ (X Y : List α) (i : Nat) (hiX : X.length ≤ i) (hi : i < (X ++ Y).length),
      (X ++ Y).get ⟨i, hi⟩ ∈ Y := by
  intro X
  induction X with
  | nil =>
    intro Y i _ hi
    simp only [List.nil_append] at hi ⊢
    exact Y.get_mem i hi
  | cons x X ih =>
    intro Y i hiX hi
    rcases i with _ | i
    · cases hiX
    · exact ih Y i (Nat.le_of_succ_le_succ hiX) (by simpa using Nat.lt_of_succ_lt_succ hi)

/-! ## Claims C8 and C9 -/

/-- Claim C8 (confirmed): in one scope's pipeline trace, every notification
about a member's achievement is preceded by the persist event for that same
member — the record write (`update_user_achievement`) completes before the
congratulation is sent, and no notification exists without its persist. -/
theorem claim_C8_persist_before_notify (env : Env) (ctx : GuildCtx)
    (changes : String → Option Int) :
    ∀ j (hj : j < (updateForGuild env ctx changes).events.length) (uid : Nat),
      (updateForGuild env ctx changes).events.get ⟨j, hj⟩ = PipeEvent.notify uid →
      ∃ i, ∃ hi : i < (updateForGuild env ctx changes).events.length,
        i < j ∧ (updateForGuild env ctx changes).events.get ⟨i, hi⟩ =
          PipeEvent.persist uid := by
  obtain ⟨nev, hdec, hnev⟩ := updateForGuild_events env ctx changes
  obtain ⟨hP, hPA⟩ := achGo_inv ctx.guild changes ctx.handles ctx.db [] []
    (fun e he => absurd he (List.not_mem_nil e))
    (fun u hu => absurd hu (List.not_mem_nil u))
  intro j hj uid hnot
  have hjlen : j < ((checkAndUpdateAchievements ctx.guild ctx.db ctx.handles changes).2.1
      ++ nev).length := by
    rw [← hdec]
    exact hj
  have hjP : (checkAndUpdateAchievements ctx.guild ctx.db ctx.handles changes).2.1.length ≤ j := by
    by_contra hc
    push_neg at hc
    have hx := (my_get_congr hdec j hj hjlen).trans (my_get_append_left _ nev j hc hjlen)
    obtain ⟨u, hu⟩ := hP _ (List.get_mem _ j hc)
    rw [hnot, hu] at hx
    cases hx
  have hmemnev : PipeEvent.notify uid ∈ nev := by
    have h1 := my_get_append_mem_right _ nev j hjP hjlen
    rw [← my_get_congr hdec j hj hjlen, hnot] at h1
    exact h1
  obtain ⟨u, he, hu⟩ := hnev _ hmemnev
  injection he with e
  subst e
  have hpmem : PipeEvent.persist uid ∈
      (checkAndUpdateAchievements ctx.guild ctx.db ctx.handles changes).2.1 := hPA uid hu
  obtain ⟨⟨i, hiP⟩, hi⟩ := List.mem_iff_get.mp hpmem
  have hilenPN : i < ((checkAndUpdateAchievements ctx.guild ctx.db ctx.handles changes).2.1
      ++ nev).length := by
    rw [List.length_append]
    omega
  have hilen : i < (updateForGuild env ctx changes).events.length := by
    rw [hdec, List.length_append]
    omega
  refine ⟨i, hilen, by omega, ?_⟩
  have hx := (my_get_congr hdec i hilen hilenPN).trans
    (my_get_append_left _ nev i hiP hilenPN)
  rw [hx]
  exact hi

/-- Claim C9 (confirmed): the event-triggered multi-scope fan-out
(`asyncio.gather` with `return_exceptions=True` over per-guild pipelines on
disjoint state) yields one outcome per scope; each scope's outcome is its
own pipeline's result, and replacing any single scope (for example by one
whose pipeline fails) leaves every other scope's outcome unchanged — no
cancellation or fail-fast across scopes. -/
theorem claim_C9_isolation (env : Env) (changes : String → Option Int)
    (ctxs ctxs₂ : List GuildCtx) (k : Nat)
    (hagree : ∀ i (h1 : i < ctxs.length) (h2 : i < ctxs₂.length), i ≠ k →
      ctxs.get ⟨i, h1⟩ = ctxs₂.get ⟨i, h2⟩) :
    ((onRatingChanges env ctxs changes).length = ctxs.length) ∧
    (∀ i (h1 : i < ctxs.length) (hm : i < (onRatingChanges env ctxs changes).length),
      (onRatingChanges env ctxs changes).get ⟨i, hm⟩ =
        updateForGuild env (ctxs.get ⟨i, h1⟩) changes) ∧
    (∀ i (hm : i < (onRatingChanges env ctxs changes).length)
        (hm2 : i < (onRatingChanges env ctxs₂ changes).length), i ≠ k →
      (onRatingChanges env ctxs changes).get ⟨i, hm⟩ =
        (onRatingChanges env ctxs₂ changes).get ⟨i, hm2⟩) := by
  have hget : ∀ (l : List GuildCtx) (i : Nat) (h1 : i < l.length)
      (hm : i < (onRatingChanges env l changes).length),
      (onRatingChanges env l changes).get ⟨i, hm⟩ =
        updateForGuild env (l.get ⟨i, h1⟩) changes := by
    intro l i h1 hm
    unfold onRatingChanges
    simp [List.get_eq_getElem, List.getElem_map]
  have hlen : ∀ (l : List GuildCtx), (onRatingChanges env l changes).length = l.length := by
    intro l
    unfold onRatingChanges
    exact List.length_map _ _
  refine ⟨hlen ctxs, fun i h1 hm => hget ctxs i h1 hm, ?_⟩
  intro i hm hm2 hik
  have h1 : i < ctxs.length := by
    rw [← hlen ctxs]
    exact hm
  have h2 : i < ctxs₂.length := by
    rw [← hlen ctxs₂]
    exact hm2
  rw [hget ctxs i h1 hm, hget ctxs₂ i h2 hm2, hagree i h1 h2 hik]

/-! ### Concrete pipeline instances -/

/-- A store holding the spec's scenario record for every member. -/
def dbW : Nat → AchState := fun _ => ⟨some 1400, some "Pupil"⟩

/-- An empty achievement store. -/
def dbN : Nat → AchState := fun _ => ⟨none, none⟩

/-- A rating-change batch: alice reaches 1650, nobody else changed. -/
def changesW : String → Option Int := fun h => if h = "alice" then some 1650 else none

/-- An empty rating-change batch. -/
def changesF : String → Option Int := fun _ => none

/-- Scope context for the C8 scenario: rankup channel configured, auto role
update off. -/
def ctxW : GuildCtx := ⟨gW, dbW, [(1, "alice"), (2, "bob")], false, true⟩

/-- A rating service that fails for the handle "afail" and rates everyone
else 1250. -/
def envF : Env :=
  ⟨fun h => if h = "afail" then .error () else .ok ⟨some 1250, some 1250⟩,
   fun _ => none, fun _ => none⟩

/-- Scope A: auto role update on, its only handle fails at the rating
service — its pipeline ends in the API error. -/
def ctxA : GuildCtx := ⟨gW, dbN, [(1, "afail")], true, false⟩

/-- Scope A with auto role update off: its pipeline succeeds. -/
def ctxA2 : GuildCtx := ⟨gW, dbN, [(1, "afail")], false, false⟩

/-- Scope B: an independent healthy scope. -/
def ctxB : GuildCtx := ⟨gW, dbN, [(2, "bob")], true, false⟩

/-- Whether a pipeline outcome ended in the uncaught API error. -/
def resultIsApiError (o : GuildOutcome) : Bool :=
  match o.result with
  | .error Err.api => true
  | _ => false

/-- Witness for C8: alice's new max 1650 over the stored (1400, "Pupil")
yields the trace persist-then-notify, and the theorem places a persist for
member 1 strictly before the notification at position 1. -/
theorem claim_C8_persist_before_notify_witness :
    ((updateForGuild envW ctxW changesW).events =
      [PipeEvent.persist 1, PipeEvent.notify 1]) ∧
    ∃ i, ∃ hi : i < (updateForGuild envW ctxW changesW).events.length,
      i < 1 ∧ (updateForGuild envW ctxW changesW).events.get ⟨i, hi⟩ =
        PipeEvent.persist 1 :=
  ⟨by decide, claim_C8_persist_before_notify envW ctxW changesW 1 (by decide) 1 (by decide)⟩

/-- Witness for C9: scope A's pipeline fails with the API error while scope
B's succeeds; B's outcome is the same whether it is gathered next to the
failing A or next to a healthy variant of A. -/
theorem claim_C9_isolation_witness :
    (((onRatingChanges envF [ctxA, ctxB] changesF).length = [ctxA, ctxB].length) ∧
     (∀ i (h1 : i < [ctxA, ctxB].length)
         (hm : i < (onRatingChanges envF [ctxA, ctxB] changesF).length),
       (onRatingChanges envF [ctxA, ctxB] changesF).get ⟨i, hm⟩ =
         updateForGuild envF ([ctxA, ctxB].get ⟨i, h1⟩) changesF) ∧
     (∀ i (hm : i < (onRatingChanges envF [ctxA, ctxB] changesF).length)
         (hm2 : i < (onRatingChanges envF [ctxA2, ctxB] changesF).length), i ≠ 0 →
       (onRatingChanges envF [ctxA, ctxB] changesF).get ⟨i, hm⟩ =
         (onRatingChanges envF [ctxA2, ctxB] changesF).get ⟨i, hm2⟩)) ∧
    resultIsApiError (updateForGuild envF ctxA changesF) = true ∧
    resultIsApiError (updateForGuild envF ctxB changesF) = false := by
  refine ⟨claim_C9_isolation envF changesF [ctxA, ctxB] [ctxA2, ctxB] 0 ?_, by decide, by decide⟩
  intro i h1 h2 hne
  match i with
  | 0 => exact absurd rfl hne
  | 1 => rfl
  | n + 2 =>
    exfalso
    simp only [List.length_cons, List.length_nil] at h1
    omega

end TLE
